import Mathlib

/-!
# Verification of the pg-sql-migrate reconciliation engine

A shallow embedding of `src/index.js` (the current version of the module:
the `migrate` function with `checkHash` / `validateDown` support).

The embedding models:
* the data model (`MigrationDef` for parsed source files, `MigrationRecord`
  for ledger rows),
* the integrity-audit loop (lines 266-283 of the source),
* the rollback scan (lines 288-312),
* the apply loop (lines 314-337),
* the filename filter regex and the `-- down` split regex of the loader,
* the content hash (sha512 over the newline-normalized file content).

SQL execution by the database is abstracted by an oracle `ok : String → Bool`
saying whether executing a given script succeeds; the engine's own ledger
statements (SELECT/INSERT/DELETE/UPDATE) are modeled directly on a list of
rows, with the single failure mode the engine can hit there: a primary-key
conflict on INSERT.
-/

namespace PgMigrate

/-- A migration definition loaded from a source file:
`{ id, name, up, down, hash }` as built by the loader. -/
structure MigrationDef where
  id : Nat
  name : String
  up : String
  down : String
  hash : String
deriving Repr, DecidableEq

/-- A persisted ledger row: `id, name, up, down, hash` columns of the
migrations table. -/
structure MigrationRecord where
  id : Nat
  name : String
  up : String
  down : String
  hash : String
deriving Repr, DecidableEq

/-- The `force` option: `false` or the literal `'last'`. -/
inductive Force where
  | off
  | last
deriving Repr, DecidableEq

/-- Run configuration: `checkHash` (default false), `validateDown`
(default true), `force` (default off). -/
structure Config where
  checkHash : Bool
  validateDown : Bool
  force : Force
deriving Repr, DecidableEq

/-- One observable database action of a run, in execution order. -/
inductive Action where
  | beginTx
  | commitTx
  | rollbackTx
  | execScript (sql : String)
  | updateHash (id : Nat) (hash : String)
  | deleteRec (id : Nat)
  | insertRec (r : MigrationRecord)
deriving Repr, DecidableEq

/-- Why a run aborted. -/
inductive RunError where
  | noMigrationsFound
  | scriptFailed (sql : String)
  | insertConflict (id : Nat)
deriving Repr, DecidableEq

/-- The ledger row produced when a definition is applied
(the INSERT at lines 327-330 of the source). -/
def toRecord (d : MigrationDef) : MigrationRecord :=
  ⟨d.id, d.name, d.up, d.down, d.hash⟩

/-- State threaded through the integrity-audit loop: the ledger table,
the `firstMismatch` accumulator (`none` models the source's `-1`), and
the trace of issued UPDATE statements. -/
structure AuditOut where
  db : List MigrationRecord
  fm : Option Nat
  tr : List Action
deriving Repr, DecidableEq

/-- One iteration of the audit loop (source lines 267-283): look up the
definition with the record's id; if the record's hash is the sentinel
`'nil'`, backfill it in the table; otherwise if the hashes differ,
lower `firstMismatch` to this id. -/
def auditStep (defs : List MigrationDef) (st : AuditOut) (r : MigrationRecord) : AuditOut :=
  match defs.find? (fun d => d.id == r.id) with
  | none => st
  | some file =>
    if r.hash = "nil" then
      { st with
        db := st.db.map (fun x => if x.id = r.id then { x with hash := file.hash } else x)
        tr := st.tr ++ [Action.updateHash r.id file.hash] }
    else if file.hash ≠ r.hash then
      { st with
        fm := match st.fm with
              | none => some r.id
              | some m => if r.id < m then some r.id else some m }
    else st

/-- The audit loop over the freshly listed records. Note that the source
runs this loop unconditionally; `checkHash` is only consulted later, in
the rollback condition. -/
def audit (defs : List MigrationDef) (records : List MigrationRecord) : AuditOut :=
  records.foldl (auditStep defs) ⟨records, none, []⟩

/-- Rollback condition (a): no definition shares the record's id
(`!migrations.some(x => x.id === id)`). -/
def condDeleted (defs : List MigrationDef) (r : MigrationRecord) : Bool :=
  !defs.any (fun d => d.id == r.id)

/-- Rollback condition (b): `checkHash && firstMismatch !== -1 && id >= firstMismatch`. -/
def condMismatch (checkHash : Bool) (fm : Option Nat) (r : MigrationRecord) : Bool :=
  checkHash && (match fm with
                | none => false
                | some f => f ≤ r.id)

/-- Rollback condition (c): `force === 'last' && id === lastMigration.id`,
where `lastMigration` is the final element of the sorted definition list. -/
def condForced (force : Force) (lastDefId : Nat) (r : MigrationRecord) : Bool :=
  (force == Force.last) && (r.id == lastDefId)

/-- The full rollback decision for one record (the `if` at source
lines 293-297). -/
def rollbackCond (cfg : Config) (defs : List MigrationDef) (fm : Option Nat)
    (lastDefId : Nat) (r : MigrationRecord) : Bool :=
  condDeleted defs r || condMismatch cfg.checkHash fm r || condForced cfg.force lastDefId r

/-- Output of the rollback phase: table state, the in-memory
`dbMigrations` view, records rolled back (in execution order),
trace, and the error that aborted the run, if any. -/
structure RollbackOut where
  db : List MigrationRecord
  view : List MigrationRecord
  rb : List MigrationRecord
  tr : List Action
  err : Option RunError
deriving Repr, DecidableEq

/-- The rollback scan (source lines 289-312): walk the records in
descending id order; while the condition holds, run the record's own
`down` script in a transaction, delete the row, and filter the
in-memory view; at the first record that is kept, stop scanning. -/
def rollbackLoop (ok : String → Bool) (cond : MigrationRecord → Bool) :
    List MigrationRecord → List MigrationRecord → List MigrationRecord → RollbackOut
  | [], db, view => ⟨db, view, [], [], none⟩
  | r :: rest, db, view =>
    if cond r then
      if ok r.down then
        let out := rollbackLoop ok cond rest
          (db.filter (fun x => x.id != r.id)) (view.filter (fun x => x.id != r.id))
        ⟨out.db, out.view, r :: out.rb,
          [Action.beginTx, Action.execScript r.down, Action.deleteRec r.id,
            Action.commitTx] ++ out.tr, out.err⟩
      else
        ⟨db, view, [],
          [Action.beginTx, Action.execScript r.down, Action.rollbackTx],
          some (RunError.scriptFailed r.down)⟩
    else
      ⟨db, view, [], [], none⟩

/-- Output of the apply phase. -/
structure ApplyOut where
  db : List MigrationRecord
  applied : List MigrationDef
  tr : List Action
  err : Option RunError
deriving Repr, DecidableEq

/-- The apply loop (source lines 317-337): for each definition with id
greater than the last remaining ledger id, run `up` (and, when
`validateDown` is on, `down` then `up` again) in one transaction, then
INSERT the ledger row; an INSERT whose id already exists in the table
violates the primary key and aborts. -/
def applyLoop (ok : String → Bool) (vd : Bool) (lastId : Nat) :
    List MigrationDef → List MigrationRecord → ApplyOut
  | [], db => ⟨db, [], [], none⟩
  | d :: rest, db =>
    if lastId < d.id then
      if ok d.up then
        if vd && !(ok d.down) then
          ⟨db, [],
            [Action.beginTx, Action.execScript d.up, Action.execScript d.down,
              Action.rollbackTx],
            some (RunError.scriptFailed d.down)⟩
        else
          let preTr := [Action.beginTx, Action.execScript d.up] ++
            (if vd then [Action.execScript d.down, Action.execScript d.up] else [])
          if db.any (fun x => x.id == d.id) then
            ⟨db, [], preTr ++ [Action.rollbackTx], some (RunError.insertConflict d.id)⟩
          else
            let out := applyLoop ok vd lastId rest (db ++ [toRecord d])
            ⟨out.db, d :: out.applied,
              preTr ++ [Action.insertRec (toRecord d), Action.commitTx] ++ out.tr,
              out.err⟩
      else
        ⟨db, [],
          [Action.beginTx, Action.execScript d.up, Action.rollbackTx],
          some (RunError.scriptFailed d.up)⟩
    else
      applyLoop ok vd lastId rest db

/-- The descending re-sort of the listed records
(`dbMigrations.slice().sort((a, b) => Math.sign(b.id - a.id))`). -/
def sortDescById (l : List MigrationRecord) : List MigrationRecord :=
  List.insertionSort (fun a b => b.id ≤ a.id) l

instance : DecidableRel (fun a b : MigrationRecord => b.id ≤ a.id) :=
  fun a b => Nat.decLe b.id a.id

/-- Overall result of one reconciliation run. -/
structure RunResult where
  db : List MigrationRecord
  rolledBack : List MigrationRecord
  applied : List MigrationDef
  tr : List Action
  err : Option RunError
deriving Repr, DecidableEq

/-- `lastMigrationId`: the id of the final element of the remaining
in-memory view, or 0 when it is empty (source lines 314-316). -/
def lastIdOfView (view : List MigrationRecord) : Nat :=
  match view.getLast? with
  | none => 0
  | some r => r.id

/-- The audit followed by the rollback scan, as composed inside `migrate`:
the scan's condition uses the audited `firstMismatch` and the id of the
last definition, and it walks the records re-sorted descending while the
table and the view start from the audited table and the listed records. -/
def runRollback (cfg : Config) (ok : String → Bool) (defs : List MigrationDef)
    (records : List MigrationRecord) (lastDef : MigrationDef) : RollbackOut :=
  rollbackLoop ok (rollbackCond cfg defs (audit defs records).fm lastDef.id)
    (sortDescById records) (audit defs records).db records

/-- The apply phase as composed inside `migrate`: it starts from the
rollback phase's table, with the threshold taken from the rollback
phase's view. -/
def runApply (cfg : Config) (ok : String → Bool) (defs : List MigrationDef)
    (records : List MigrationRecord) (lastDef : MigrationDef) : ApplyOut :=
  applyLoop ok cfg.validateDown
    (lastIdOfView (runRollback cfg ok defs records lastDef).view)
    defs (runRollback cfg ok defs records lastDef).db

/-- The run once the definition list is known non-empty,
with `lastDef` the final (highest-id, as the loader sorts) definition. -/
def migrateCore (cfg : Config) (ok : String → Bool) (defs : List MigrationDef)
    (records : List MigrationRecord) (lastDef : MigrationDef) : RunResult :=
  match (runRollback cfg ok defs records lastDef).err with
  | some e =>
    ⟨(runRollback cfg ok defs records lastDef).db,
     (runRollback cfg ok defs records lastDef).rb, [],
     (audit defs records).tr ++ (runRollback cfg ok defs records lastDef).tr,
     some e⟩
  | none =>
    ⟨(runApply cfg ok defs records lastDef).db,
     (runRollback cfg ok defs records lastDef).rb,
     (runApply cfg ok defs records lastDef).applied,
     (audit defs records).tr ++ (runRollback cfg ok defs records lastDef).tr ++
       (runApply cfg ok defs records lastDef).tr,
     (runApply cfg ok defs records lastDef).err⟩

/-- One reconciliation run of `migrate` given the loaded definitions
(ascending, as produced by the loader) and the listed ledger records
(ascending by id, as returned by `SELECT ... ORDER BY id ASC`).
An empty definition list aborts before touching the database. -/
def migrate (cfg : Config) (ok : String → Bool) (defs : List MigrationDef)
    (records : List MigrationRecord) : RunResult :=
  match defs.getLast? with
  | none => ⟨records, [], [], [], some RunError.noMigrationsFound⟩
  | some lastDef => migrateCore cfg ok defs records lastDef

instance : IsTotal MigrationRecord (fun a b => b.id ≤ a.id) :=
  ⟨fun a b => Nat.le_total b.id a.id⟩

instance : IsTrans MigrationRecord (fun a b => b.id ≤ a.id) :=
  ⟨fun _ _ _ hab hbc => le_trans hbc hab⟩

/-! ## Audit phase lemmas -/
/-- The repair the audit applies to a row `x` when the scanned record `r`
shares its id: a definition-matched sentinel row is backfilled with the
definition's hash. -/
def hashFix (defs : List MigrationDef) (r : MigrationRecord)
    (x : MigrationRecord) : MigrationRecord :=
  match defs.find? (fun d => d.id == r.id) with
  | none => x
  | some d => if r.hash = "nil" then { x with hash := d.hash } else x

/-- The net effect of the whole audit loop on one table row. -/
def auditWrite (defs : List MigrationDef) (rs : List MigrationRecord)
    (x : MigrationRecord) : MigrationRecord :=
  match rs.find? (fun s => s.id == x.id) with
  | none => x
  | some r => hashFix defs r x

/-- The effect of one audit iteration (scanning record `r`) on an
arbitrary table row `x`. -/
def stepWrite (defs : List MigrationDef) (r : MigrationRecord)
    (x : MigrationRecord) : MigrationRecord :=
  match defs.find? (fun d => d.id == r.id) with
  | none => x
  | some d => if r.hash = "nil" ∧ x.id = r.id then { x with hash := d.hash } else x

/-- A record that the audit counts as a hash mismatch: it has a matching
definition, a non-sentinel hash, and the hashes differ. -/
def isMismatch (defs : List MigrationDef) (r : MigrationRecord) : Bool :=
  match defs.find? (fun d => d.id == r.id) with
  | none => false
  | some d => (r.hash != "nil") && (d.hash != r.hash)

/-- The UPDATE the audit loop issues for one scanned record, if any. -/
def auditEmit (defs : List MigrationDef) (r : MigrationRecord) : Option Action :=
  match defs.find? (fun d => d.id == r.id) with
  | none => none
  | some d => if r.hash = "nil" then some (Action.updateHash r.id d.hash) else none

/-! ## Rollback phase lemmas -/
/-- Keep the table rows whose id is not among the rolled-back records. -/
def keepFilter (rb : List MigrationRecord) (x : MigrationRecord) : Bool :=
  rb.all (fun r => x.id != r.id)

/-- The trace produced by a sequence of successful rollback transactions. -/
def rbTrace (rb : List MigrationRecord) : List Action :=
  rb.foldr (fun r acc =>
    [Action.beginTx, Action.execScript r.down, Action.deleteRec r.id,
      Action.commitTx] ++ acc) []

/-! ## Claim C3: the `-- down` separator split

The loader splits each file's text with the JavaScript call
`data.split(/^--\s+?down/im)` and rejects the file when the second piece
is missing or empty.  The file text is modelled as a `List Char`.  The
regex is anchored (`^` with the `m` flag) at position 0 or right after a
line terminator, matches the two literal dashes, then one-or-more
whitespace characters (lazily), then `down` case-insensitively. -/
/-- JavaScript `\s` character class. -/
def jsWhitespace (c : Char) : Bool :=
  c == ' ' || c == '\t' || c == '\n' || c == '\r' || c == '\x0B' || c == '\x0C' ||
  c == ' ' || c == ' ' || c == ' ' || c == ' ' ||
  c == ' ' || c == ' ' || c == ' ' || c == ' ' ||
  c == ' ' || c == ' ' || c == ' ' || c == ' ' ||
  c == ' ' || c == ' ' || c == ' ' || c == ' ' ||
  c == ' ' || c == '　' || c == '﻿'

/-- JavaScript line terminators, after which a multiline `^` matches. -/
def jsLineTerm (c : Char) : Bool :=
  c == '\n' || c == '\r' || c == ' ' || c == ' '

/-- Does the text start with `down`, case-insensitively? -/
def startsWithDown (l : List Char) : Bool :=
  match l with
  | c1 :: c2 :: c3 :: c4 :: _ =>
    (c1 == 'd' || c1 == 'D') && (c2 == 'o' || c2 == 'O') &&
    (c3 == 'w' || c3 == 'W') && (c4 == 'n' || c4 == 'N')
  | _ => false

/-- Match `\s+?down` at the head of the text: lazily consume one or more
whitespace characters, then `down`; returns the matched length. -/
def wsThenDown : List Char → Option Nat
  | [] => none
  | c :: rest =>
    if jsWhitespace c then
      if startsWithDown rest then some 5
      else
        match wsThenDown rest with
        | some n => some (n + 1)
        | none => none
    else none

/-- Match `--\s+?down` at the head of the text; returns the matched length. -/
def matchMarker : List Char → Option Nat
  | '-' :: '-' :: rest =>
    (match wsThenDown rest with
     | some n => some (n + 2)
     | none => none)
  | _ => none

/-- Scan for the first anchored match of the separator regex.  The flag
records whether the current position is a line start (position 0, or the
previous character was a line terminator); the result is the offset of
the first match together with its length. -/
def findMarkerAux : List Char → Bool → Option (Nat × Nat)
  | [], _ => none
  | c :: rest, atStart =>
    match (if atStart then matchMarker (c :: rest) else none) with
    | some n => some (0, n)
    | none =>
      match findMarkerAux rest (jsLineTerm c) with
      | some p => some (p.1 + 1, p.2)
      | none => none

/-- The second piece produced by `String.prototype.split`: the text from
the end of the first match (at offset `i`, length `n`) up to the start of
the next match, or to the end of the file when there is none.  The
resumed scan is never at a line start, because a match always ends with
the letter `n`. -/
def downPieceAt (data : List Char) (i n : Nat) : List Char :=
  match findMarkerAux (data.drop (i + n)) false with
  | none => data.drop (i + n)
  | some p => (data.drop (i + n)).take p.1

/-- Lines 216–219 of the loader: `data.split(/^--\s+?down/im)` destructured
as `[up, down]`, failing (MalformedMigrationFile) when `down` is missing
or empty. -/
def splitUpDown (data : List Char) : Option (List Char × List Char) :=
  match findMarkerAux data true with
  | none => none
  | some p =>
    if (downPieceAt data p.1 p.2).isEmpty then none
    else some (data.take p.1, downPieceAt data p.1 p.2)

/-- Is position `i` a line start (as `^` with the `m` flag sees it),
given that the scan began with flag `b` at position 0? -/
def startOkAt (data : List Char) (b : Bool) (i : Nat) : Bool :=
  if i = 0 then b
  else
    match (data.drop (i - 1)).head? with
    | some c => jsLineTerm c
    | none => false

/-- The anchored regex match attempted at position `i`. -/
def anchoredMatch (data : List Char) (b : Bool) (i : Nat) : Option Nat :=
  if startOkAt data b i = true then matchMarker (data.drop i) else none

/-- Spec-side notion (from the spec's words): split the text into lines
and look for a line that, ignoring leading whitespace, is `--` followed
by optional whitespace and the token `down` (case-insensitive), with
optional trailing text. -/
def specIsMarkerLine (line : List Char) : Bool :=
  match line.dropWhile jsWhitespace with
  | '-' :: '-' :: rest => startsWithDown (rest.dropWhile jsWhitespace)
  | _ => false

def splitLinesAux : List Char → List Char → List (List Char)
  | [], acc => [acc.reverse]
  | c :: rest, acc =>
    if jsLineTerm c then acc.reverse :: splitLinesAux rest []
    else splitLinesAux rest (c :: acc)

def splitLines (data : List Char) : List (List Char) :=
  splitLinesAux data []

/-- Spec-side failure condition: no `-- down` marker line exists. -/
def specHasDownMarkerLine (data : List Char) : Bool :=
  (splitLines data).any specIsMarkerLine

/-! ## Claim C5: filename selection and parsing

The loader keeps the filenames matching `/^(\d+).(.*?)\.sql$/` (note the
unescaped dot after the digit group) and reads `id` from capture 1 and
`name` from capture 2.  The regex engine tries the greedy `(\d+)` with
the longest digit prefix first and backtracks to shorter prefixes; the
unescaped `.` matches any character but a line terminator; the lazy
middle group is forced by the `$` anchor to end exactly before the final
`.sql`. -/
/-- `Number(x[1])` on a digit string. -/
def digitsToNat (l : List Char) : Nat :=
  l.foldl (fun acc c => acc * 10 + (c.toNat - 48)) 0

/-- One attempt of the filename regex with the digit group forced to
length `k`: the first `k` characters are digits, the next character is
the unescaped dot (any character but a line terminator), the middle
group runs to `length - 4` and may not contain line terminators, and the
last four characters are `.sql`.  Returns the two capture groups. -/
def matchAtK (s : List Char) (k : Nat) : Option (List Char × List Char) :=
  if 1 ≤ k ∧ k + 5 ≤ s.length then
    if (s.take k).all Char.isDigit then
      match (s.drop k).head? with
      | none => none
      | some c =>
        if jsLineTerm c then none
        else if ((s.drop (k + 1)).take (s.length - 4 - (k + 1))).any jsLineTerm then
          none
        else if s.drop (s.length - 4) = ['.', 's', 'q', 'l'] then
          some (s.take k, (s.drop (k + 1)).take (s.length - 4 - (k + 1)))
        else none
    else none
  else none

/-- Greedy backtracking of `(\d+)`: try the digit-group lengths from the
longest candidate downward and keep the first that matches. -/
def tryFrom (s : List Char) : Nat → Option (List Char × List Char)
  | 0 => none
  | k + 1 =>
    match matchAtK s (k + 1) with
    | some r => some r
    | none => tryFrom s k

/-- Line 193 of the loader: `x.match(/^(\d+).(.*?)\.sql$/)` with
`id = Number(x[1])` and `name = x[2]`; the digit group can never exceed
the leading digit run. -/
def parseFilename (s : List Char) : Option (Nat × List Char) :=
  match tryFrom s (s.takeWhile Char.isDigit).length with
  | some r => some (digitsToNat r.1, r.2)
  | none => none

/-- Lines 186–196 of the loader: keep the parsed filenames (others are
dropped by `.filter(x => x !== null)`) and sort ascending by id with
`Math.sign(a.id - b.id)` (a stable sort). -/
def loadDefsFromNames (files : List (List Char)) : List (Nat × List Char) :=
  (files.filterMap parseFilename).insertionSort (fun a b => a.1 ≤ b.1)

/-- Spec-side form (from the spec's words): `<digits>.<name>.sql`, with a
literal dot after the digit run. -/
def specFilenameForm (s : List Char) : Bool :=
  let ds := s.takeWhile Char.isDigit
  decide (1 ≤ ds.length) &&
    (match s.drop ds.length with
     | '.' :: r2 =>
       decide (4 ≤ r2.length) && decide (r2.drop (r2.length - 4) = ['.', 's', 'q', 'l'])
     | _ => false)

instance : IsTotal (Nat × List Char) (fun a b => a.1 ≤ b.1) :=
  ⟨fun a b => Nat.le_total a.1 b.1⟩

instance : IsTrans (Nat × List Char) (fun a b => a.1 ≤ b.1) :=
  ⟨fun _ _ _ hab hbc => le_trans hab hbc⟩

/-! ## Claim C4: the content hash

Lines 223–226 of the loader compute
`crypto.createHash('sha512').update(data.replace(/\r\n/g, '\n')).digest('hex')`.
The pipeline is modelled in full: CRLF normalization on the character
list, UTF-8 encoding to bytes, FIPS 180-4 SHA-512 over `Nat` arithmetic
modulo `2^64`, and lowercase hex rendering.  The implementation was
checked against the standard test vectors (for example the digest of
`abc`). -/
/-- `data.replace(/\r\n/g, '\n')`: one left-to-right pass replacing each
(non-overlapping) CRLF pair by LF. -/
def normalizeNewlines : List Char → List Char
  | [] => []
  | [c] => [c]
  | c1 :: c2 :: rest =>
    if c1 = '\r' ∧ c2 = '\n' then '\n' :: normalizeNewlines rest
    else c1 :: normalizeNewlines (c2 :: rest)

/-- UTF-8 encoding of one code point. -/
def utf8Char (c : Char) : List Nat :=
  let n := c.toNat
  if n < 0x80 then [n]
  else if n < 0x800 then [0xC0 + n / 64, 0x80 + n % 64]
  else if n < 0x10000 then [0xE0 + n / 4096, 0x80 + n / 64 % 64, 0x80 + n % 64]
  else [0xF0 + n / 262144, 0x80 + n / 4096 % 64, 0x80 + n / 64 % 64, 0x80 + n % 64]

def utf8Encode (s : List Char) : List Nat := (s.map utf8Char).flatten

def M64 : Nat := 2 ^ 64

def add64 (x y : Nat) : Nat := (x + y) % M64

def rotr (r x : Nat) : Nat := x / 2 ^ r + x % 2 ^ r * 2 ^ (64 - r)

def shr (r x : Nat) : Nat := x / 2 ^ r

def bigSigma0 (x : Nat) : Nat := rotr 28 x ^^^ rotr 34 x ^^^ rotr 39 x

def bigSigma1 (x : Nat) : Nat := rotr 14 x ^^^ rotr 18 x ^^^ rotr 41 x

def smallSigma0 (x : Nat) : Nat := rotr 1 x ^^^ rotr 8 x ^^^ shr 7 x

def smallSigma1 (x : Nat) : Nat := rotr 19 x ^^^ rotr 61 x ^^^ shr 6 x

def ch64 (x y z : Nat) : Nat := (x &&& y) ^^^ ((x ^^^ (M64 - 1)) &&& z)

def maj64 (x y z : Nat) : Nat := (x &&& y) ^^^ (x &&& z) ^^^ (y &&& z)

/-- Big-endian byte rendering of a value, `n` bytes wide. -/
def beBytes (n v : Nat) : List Nat :=
  (List.range n).map (fun i => v / 2 ^ (8 * (n - 1 - i)) % 256)

/-- Big-endian word from bytes. -/
def beWord (bytes : List Nat) : Nat := bytes.foldl (fun acc b => acc * 256 + b) 0

/-- SHA-512 padding: `0x80`, zeros to 112 mod 128, 128-bit length. -/
def padMessage (msg : List Nat) : List Nat :=
  msg ++ [0x80] ++ List.replicate ((128 - (msg.length + 17) % 128) % 128) 0 ++
    beBytes 16 (8 * msg.length)

def chunksAux : Nat → List Nat → List (List Nat)
  | 0, _ => []
  | fuel + 1, l => if l = [] then [] else l.take 128 :: chunksAux fuel (l.drop 128)

/-- Split a byte list into 128-byte blocks. -/
def chunks (l : List Nat) : List (List Nat) := chunksAux l.length l

def wAt (ws : List Nat) (i : Nat) : Nat := ws.getD i 0

/-- Extend the 16 block words to the 80-entry message schedule. -/
def extendW : Nat → List Nat → List Nat
  | 0, ws => ws
  | t + 1, ws =>
    extendW t (ws ++ [(smallSigma1 (wAt ws (ws.length - 2)) + wAt ws (ws.length - 7) +
      smallSigma0 (wAt ws (ws.length - 15)) + wAt ws (ws.length - 16)) % M64])

/-- The SHA-512 round constants (fractional cube roots of the first 80
primes). -/
def w64 (hi lo : Nat) : Nat := hi * 2 ^ 32 + lo

def K512 : List Nat :=
[
  w64 0x428a2f98 0xd728ae22, w64 0x71374491 0x23ef65cd, w64 0xb5c0fbcf 0xec4d3b2f,
  w64 0xe9b5dba5 0x8189dbbc, w64 0x3956c25b 0xf348b538, w64 0x59f111f1 0xb605d019,
  w64 0x923f82a4 0xaf194f9b, w64 0xab1c5ed5 0xda6d8118, w64 0xd807aa98 0xa3030242,
  w64 0x12835b01 0x45706fbe, w64 0x243185be 0x4ee4b28c, w64 0x550c7dc3 0xd5ffb4e2,
  w64 0x72be5d74 0xf27b896f, w64 0x80deb1fe 0x3b1696b1, w64 0x9bdc06a7 0x25c71235,
  w64 0xc19bf174 0xcf692694, w64 0xe49b69c1 0x9ef14ad2, w64 0xefbe4786 0x384f25e3,
  w64 0x0fc19dc6 0x8b8cd5b5, w64 0x240ca1cc 0x77ac9c65, w64 0x2de92c6f 0x592b0275,
  w64 0x4a7484aa 0x6ea6e483, w64 0x5cb0a9dc 0xbd41fbd4, w64 0x76f988da 0x831153b5,
  w64 0x983e5152 0xee66dfab, w64 0xa831c66d 0x2db43210, w64 0xb00327c8 0x98fb213f,
  w64 0xbf597fc7 0xbeef0ee4, w64 0xc6e00bf3 0x3da88fc2, w64 0xd5a79147 0x930aa725,
  w64 0x06ca6351 0xe003826f, w64 0x14292967 0x0a0e6e70, w64 0x27b70a85 0x46d22ffc,
  w64 0x2e1b2138 0x5c26c926, w64 0x4d2c6dfc 0x5ac42aed, w64 0x53380d13 0x9d95b3df,
  w64 0x650a7354 0x8baf63de, w64 0x766a0abb 0x3c77b2a8, w64 0x81c2c92e 0x47edaee6,
  w64 0x92722c85 0x1482353b, w64 0xa2bfe8a1 0x4cf10364, w64 0xa81a664b 0xbc423001,
  w64 0xc24b8b70 0xd0f89791, w64 0xc76c51a3 0x0654be30, w64 0xd192e819 0xd6ef5218,
  w64 0xd6990624 0x5565a910, w64 0xf40e3585 0x5771202a, w64 0x106aa070 0x32bbd1b8,
  w64 0x19a4c116 0xb8d2d0c8, w64 0x1e376c08 0x5141ab53, w64 0x2748774c 0xdf8eeb99,
  w64 0x34b0bcb5 0xe19b48a8, w64 0x391c0cb3 0xc5c95a63, w64 0x4ed8aa4a 0xe3418acb,
  w64 0x5b9cca4f 0x7763e373, w64 0x682e6ff3 0xd6b2b8a3, w64 0x748f82ee 0x5defb2fc,
  w64 0x78a5636f 0x43172f60, w64 0x84c87814 0xa1f0ab72, w64 0x8cc70208 0x1a6439ec,
  w64 0x90befffa 0x23631e28, w64 0xa4506ceb 0xde82bde9, w64 0xbef9a3f7 0xb2c67915,
  w64 0xc67178f2 0xe372532b, w64 0xca273ece 0xea26619c, w64 0xd186b8c7 0x21c0c207,
  w64 0xeada7dd6 0xcde0eb1e, w64 0xf57d4f7f 0xee6ed178, w64 0x06f067aa 0x72176fba,
  w64 0x0a637dc5 0xa2c898a6, w64 0x113f9804 0xbef90dae, w64 0x1b710b35 0x131c471b,
  w64 0x28db77f5 0x23047d84, w64 0x32caab7b 0x40c72493, w64 0x3c9ebe0a 0x15c9bebc,
  w64 0x431d67c4 0x9c100d4c, w64 0x4cc5d4be 0xcb3e42b6, w64 0x597f299c 0xfc657e2a,
  w64 0x5fcb6fab 0x3ad6faec, w64 0x6c44198c 0x4a475817]

/-- The SHA-512 initial hash state (fractional square roots of the first
8 primes). -/
def H512 : List Nat :=
[
  w64 0x6a09e667 0xf3bcc908, w64 0xbb67ae85 0x84caa73b, w64 0x3c6ef372 0xfe94f82b,
  w64 0xa54ff53a 0x5f1d36f1, w64 0x510e527f 0xade682d1, w64 0x9b05688c 0x2b3e6c1f,
  w64 0x1f83d9ab 0xfb41bd6b, w64 0x5be0cd19 0x137e2179]

/-- One SHA-512 round on the eight working variables. -/
def roundStep (kw : Nat × Nat) (st : List Nat) : List Nat :=
  let a := st.getD 0 0
  let b := st.getD 1 0
  let c := st.getD 2 0
  let d := st.getD 3 0
  let e := st.getD 4 0
  let f := st.getD 5 0
  let g := st.getD 6 0
  let h := st.getD 7 0
  let t1 := (h + bigSigma1 e + ch64 e f g + kw.1 + kw.2) % M64
  let t2 := (bigSigma0 a + maj64 a b c) % M64
  [add64 t1 t2, a, b, c, add64 d t1, e, f, g]

/-- Process one 128-byte block. -/
def compress (hs block : List Nat) : List Nat :=
  List.zipWith add64 hs
    ((List.zip K512 (extendW 64 ((List.range 16).map (fun i =>
      beWord ((block.drop (8 * i)).take 8))))).foldl (fun s kw => roundStep kw s) hs)

/-- SHA-512 of a byte list, as eight 64-bit words. -/
def sha512Words (msg : List Nat) : List Nat :=
  (chunks (padMessage msg)).foldl compress H512

def hexDigit (n : Nat) : Char :=
  if n < 10 then Char.ofNat (48 + n) else Char.ofNat (87 + n)

/-- Lowercase hex rendering of one 64-bit word, most significant first. -/
def hexWord (w : Nat) : List Char :=
  (List.range 16).map (fun i => hexDigit (w / 2 ^ (4 * (15 - i)) % 16))

def hexDigits : List Char :=
  ['0', '1', '2', '3', '4', '5', '6', '7'] ++ ['8', '9', 'a', 'b', 'c', 'd', 'e', 'f']

/-- Lines 223–226: the file's `migration.hash`. -/
def contentHash (d : List Char) : List Char :=
  ((sha512Words (utf8Encode (normalizeNewlines d))).map hexWord).flatten

/-! ## Generic list facts used throughout -/
theorem exists_takeWhile_eq_take {α : Type} (p : α → Bool) :
    ∀ l : List α, ∃ k, l.takeWhile p = l.take k := by
  intro l
  induction l with
  | nil => exact ⟨0, rfl⟩
  | cons a t ih =>
    by_cases h : p a
    · obtain ⟨k, hk⟩ := ih
      exact ⟨k + 1, by simp [List.takeWhile_cons, h, hk]⟩
    · exact ⟨0, by simp [List.takeWhile_cons, h]⟩

theorem mem_of_mem_takeWhile {α : Type} {p : α → Bool} :
    ∀ {l : List α} {a : α}, a ∈ l.takeWhile p → a ∈ l ∧ p a = true := by
  intro l
  induction l with
  | nil => intro a h; simp [List.takeWhile] at h
  | cons b t ih =>
    intro a h
    rw [List.takeWhile_cons] at h
    by_cases hb : p b
    · simp only [hb, if_true, List.mem_cons] at h
      rcases h with h | h
      · exact ⟨by simp [h], h ▸ hb⟩
      · obtain ⟨h1, h2⟩ := ih h
        exact ⟨List.mem_cons_of_mem _ h1, h2⟩
    · simp [hb] at h

/-- Strictly descending (by id) record lists that are permutations of one
another are equal. -/
theorem eq_of_perm_sorted_desc :
    ∀ {l₁ l₂ : List MigrationRecord}, l₁.Perm l₂ →
    l₁.Pairwise (fun a b => b.id < a.id) →
    l₂.Pairwise (fun a b => b.id < a.id) → l₁ = l₂ := by
  intro l₁
  induction l₁ with
  | nil =>
    intro l₂ hp _ _
    exact (List.Perm.nil_eq hp).symm ▸ rfl
  | cons a t ih =>
    intro l₂ hp h₁ h₂
    cases l₂ with
    | nil => exact absurd hp (by simp)
    | cons b t₂ =>
      have hab : a = b := by
        have ha : a ∈ b :: t₂ := hp.mem_iff.mp (by simp)
        have hb : b ∈ a :: t := hp.mem_iff.mpr (by simp)
        rcases List.mem_cons.mp ha with h | ha'
        · exact h
        rcases List.mem_cons.mp hb with h | hb'
        · exact h.symm
        have h1 : a.id < b.id := List.rel_of_pairwise_cons h₂ ha'
        have h2 : b.id < a.id := List.rel_of_pairwise_cons h₁ hb'
        exact absurd (h1.trans h2) (lt_irrefl _)
      subst hab
      have ht : t.Perm t₂ := List.Perm.cons_inv hp
      rw [ih ht h₁.of_cons h₂.of_cons]

/-- Weak descending order plus distinct ids gives strict descending order. -/
theorem pairwise_desc_strict {l : List MigrationRecord}
    (h : l.Pairwise (fun a b => b.id ≤ a.id))
    (hnd : (l.map (fun r => r.id)).Nodup) :
    l.Pairwise (fun a b => b.id < a.id) := by
  have hne : l.Pairwise (fun a b => a.id ≠ b.id) := List.pairwise_map.mp hnd
  exact (h.and hne).imp (fun hab => lt_of_le_of_ne hab.1 (fun he => hab.2 he.symm))

/-- On a ledger listing with strictly ascending ids, the descending
re-sort is exactly the reverse of the listing. -/
theorem sortDescById_eq_reverse {records : List MigrationRecord}
    (h : records.Pairwise (fun a b => a.id < b.id)) :
    sortDescById records = records.reverse := by
  have hnd : (records.map (fun r => r.id)).Nodup :=
    List.pairwise_map.mpr (h.imp (fun hab => Nat.ne_of_lt hab))
  have hperm : (sortDescById records).Perm records.reverse :=
    (List.perm_insertionSort _ records).trans (List.reverse_perm records).symm
  have hnd' : ((sortDescById records).map (fun r => r.id)).Nodup := by
    have := (hperm.trans (List.reverse_perm records)).map (fun r => r.id)
    exact this.nodup_iff.mpr hnd
  have hsorted : (sortDescById records).Pairwise (fun a b => b.id ≤ a.id) :=
    List.sorted_insertionSort _ records
  have hrev : records.reverse.Pairwise (fun a b => b.id < a.id) :=
    List.pairwise_reverse.mpr h
  exact eq_of_perm_sorted_desc hperm (pairwise_desc_strict hsorted hnd') hrev

/-- Membership in the kept head of a strictly descending scan list:
an element is taken exactly when the predicate holds of it and of every
element with a larger id. -/
theorem mem_takeWhile_iff_desc {p : MigrationRecord → Bool} :
    ∀ {desc : List MigrationRecord},
    desc.Pairwise (fun a b => b.id < a.id) → ∀ {r : MigrationRecord},
    (r ∈ desc.takeWhile p ↔
      r ∈ desc ∧ p r = true ∧ ∀ s ∈ desc, r.id < s.id → p s = true) := by
  intro desc
  induction desc with
  | nil => intro _ r; simp [List.takeWhile]
  | cons a t ih =>
    intro hd r
    rw [List.takeWhile_cons]
    by_cases ha : p a
    · simp only [ha, if_true, List.mem_cons]
      constructor
      · intro h
        rcases h with h | h
        · subst h
          refine ⟨Or.inl rfl, ha, ?_⟩
          intro s hs hlt
          rcases hs with rfl | hs'
          · exact ha
          · exact absurd (hlt.trans (List.rel_of_pairwise_cons hd hs')) (lt_irrefl _)
        · obtain ⟨h1, h2, h3⟩ := (ih hd.of_cons).mp h
          refine ⟨Or.inr h1, h2, ?_⟩
          intro s hs hlt
          rcases hs with rfl | hs'
          · exact ha
          · exact h3 s hs' hlt
      · intro ⟨h1, h2, h3⟩
        rcases h1 with rfl | h1'
        · exact Or.inl rfl
        · refine Or.inr ((ih hd.of_cons).mpr ⟨h1', h2, ?_⟩)
          intro s hs hlt
          exact h3 s (Or.inr hs) hlt
    · simp only [ha, if_false, Bool.false_eq_true]
      constructor
      · intro h; simp at h
      · intro ⟨h1, h2, h3⟩
        rcases List.mem_cons.mp h1 with rfl | h1'
        · exact absurd h2 (by simpa using ha)
        · exact absurd (h3 a (by simp) (List.rel_of_pairwise_cons hd h1')) (by simpa using ha)

theorem hashFix_none (defs : List MigrationDef) (r x : MigrationRecord)
    (hf : defs.find? (fun d => d.id == r.id) = none) : hashFix defs r x = x := by
  unfold hashFix
  rw [hf]

theorem hashFix_some (defs : List MigrationDef) (r x : MigrationRecord)
    (d : MigrationDef) (hf : defs.find? (fun d => d.id == r.id) = some d) :
    hashFix defs r x = if r.hash = "nil" then { x with hash := d.hash } else x := by
  unfold hashFix
  rw [hf]

theorem hashFix_id (defs : List MigrationDef) (r x : MigrationRecord) :
    (hashFix defs r x).id = x.id := by
  cases hf : defs.find? (fun d => d.id == r.id) with
  | none => rw [hashFix_none defs r x hf]
  | some d =>
    rw [hashFix_some defs r x d hf]
    by_cases hnil : r.hash = "nil"
    · simp [hnil]
    · simp [hnil]

theorem stepWrite_none (defs : List MigrationDef) (r x : MigrationRecord)
    (hf : defs.find? (fun d => d.id == r.id) = none) : stepWrite defs r x = x := by
  unfold stepWrite
  rw [hf]

theorem stepWrite_some (defs : List MigrationDef) (r x : MigrationRecord)
    (d : MigrationDef) (hf : defs.find? (fun d => d.id == r.id) = some d) :
    stepWrite defs r x =
      if r.hash = "nil" ∧ x.id = r.id then { x with hash := d.hash } else x := by
  unfold stepWrite
  rw [hf]

theorem stepWrite_id (defs : List MigrationDef) (r x : MigrationRecord) :
    (stepWrite defs r x).id = x.id := by
  cases hf : defs.find? (fun d => d.id == r.id) with
  | none => rw [stepWrite_none defs r x hf]
  | some d =>
    rw [stepWrite_some defs r x d hf]
    by_cases h : r.hash = "nil" ∧ x.id = r.id
    · simp [h]
    · simp [h]

theorem stepWrite_of_ne (defs : List MigrationDef) (r x : MigrationRecord)
    (h : ¬x.id = r.id) : stepWrite defs r x = x := by
  cases hf : defs.find? (fun d => d.id == r.id) with
  | none => rw [stepWrite_none defs r x hf]
  | some d =>
    rw [stepWrite_some defs r x d hf]
    simp [h]

theorem auditWrite_eq_none (defs : List MigrationDef) (rs : List MigrationRecord)
    (x : MigrationRecord) (h : rs.find? (fun s => s.id == x.id) = none) :
    auditWrite defs rs x = x := by
  unfold auditWrite
  rw [h]

theorem auditWrite_eq_some (defs : List MigrationDef) (rs : List MigrationRecord)
    (x r : MigrationRecord) (h : rs.find? (fun s => s.id == x.id) = some r) :
    auditWrite defs rs x = hashFix defs r x := by
  unfold auditWrite
  rw [h]

theorem auditWrite_id (defs : List MigrationDef) (rs : List MigrationRecord)
    (x : MigrationRecord) : (auditWrite defs rs x).id = x.id := by
  cases h : rs.find? (fun s => s.id == x.id) with
  | none => rw [auditWrite_eq_none defs rs x h]
  | some r => rw [auditWrite_eq_some defs rs x r h, hashFix_id]

theorem auditStep_db (defs : List MigrationDef) (st : AuditOut) (r : MigrationRecord) :
    (auditStep defs st r).db = st.db.map (stepWrite defs r) := by
  unfold auditStep
  cases hf : defs.find? (fun d => d.id == r.id) with
  | none =>
    simp only []
    have h : ∀ x ∈ st.db, (fun (y : MigrationRecord) => y) x = stepWrite defs r x :=
      fun x _ => (stepWrite_none defs r x hf).symm
    rw [← List.map_congr_left h, List.map_id']
  | some d =>
    by_cases hnil : r.hash = "nil"
    · simp only [hnil, if_true]
      apply List.map_congr_left
      intro x _
      rw [stepWrite_some defs r x d hf]
      by_cases hx : x.id = r.id
      · simp [hx, hnil]
      · simp [hx, hnil]
    · have hrw : st.db.map (stepWrite defs r) = st.db := by
        rw [List.map_congr_left (fun x _ => stepWrite_some defs r x d hf),
          List.map_congr_left (fun x _ => by simp [hnil] :
            ∀ x ∈ st.db, (if r.hash = "nil" ∧ x.id = r.id then
              ({ x with hash := d.hash } : MigrationRecord) else x) = x),
          List.map_id']
      simp only [hnil, if_false]
      split <;> exact hrw.symm

theorem auditWrite_cons (defs : List MigrationDef) (r : MigrationRecord)
    (rs' : List MigrationRecord) (x : MigrationRecord)
    (hnotin : r.id ∉ rs'.map (fun s => s.id)) :
    auditWrite defs (r :: rs') x = auditWrite defs rs' (stepWrite defs r x) := by
  by_cases hrx : r.id = x.id
  · have hhead : (r :: rs').find? (fun s => s.id == x.id) = some r :=
      List.find?_cons_of_pos _ (by simp [hrx])
    have hfind' : rs'.find? (fun s => s.id == x.id) = none := by
      rw [List.find?_eq_none]
      intro s hs hsx
      exact hnotin (hrx ▸ (by simpa using hsx) ▸ List.mem_map_of_mem (fun t => t.id) hs)
    have hfind'' : rs'.find? (fun s => s.id == (stepWrite defs r x).id) = none := by
      rw [stepWrite_id]
      exact hfind'
    rw [auditWrite_eq_some defs _ x r hhead, auditWrite_eq_none defs rs' _ hfind'']
    cases hf : defs.find? (fun d => d.id == r.id) with
    | none => rw [hashFix_none defs r x hf, stepWrite_none defs r x hf]
    | some d =>
      rw [hashFix_some defs r x d hf, stepWrite_some defs r x d hf]
      have hxr : x.id = r.id := hrx.symm
      simp [hxr]
  · have hhead : (r :: rs').find? (fun s => s.id == x.id) =
        rs'.find? (fun s => s.id == x.id) :=
      List.find?_cons_of_neg _ (by simpa using hrx)
    rw [stepWrite_of_ne defs r x (fun h => hrx h.symm)]
    unfold auditWrite
    rw [hhead]

theorem audit_foldl_db (defs : List MigrationDef) :
    ∀ (rs : List MigrationRecord) (st : AuditOut),
    (rs.map (fun r => r.id)).Nodup →
    (rs.foldl (auditStep defs) st).db = st.db.map (auditWrite defs rs) := by
  intro rs
  induction rs with
  | nil =>
    intro st _
    simp only [List.foldl_nil]
    have h : ∀ x ∈ st.db, (fun (y : MigrationRecord) => y) x = auditWrite defs [] x :=
      fun x _ => (auditWrite_eq_none defs [] x rfl).symm
    rw [← List.map_congr_left h, List.map_id']
  | cons r rs' ih =>
    intro st hnd
    have hcons := List.nodup_cons.mp hnd
    rw [List.foldl_cons, ih _ hcons.2, auditStep_db, List.map_map]
    apply List.map_congr_left
    intro x _
    exact (auditWrite_cons defs r rs' x hcons.1).symm

theorem audit_db_eq (defs : List MigrationDef) (records : List MigrationRecord)
    (hnd : (records.map (fun r => r.id)).Nodup) :
    (audit defs records).db = records.map (auditWrite defs records) :=
  audit_foldl_db defs records ⟨records, none, []⟩ hnd

theorem auditStep_fm (defs : List MigrationDef) (st : AuditOut) (r : MigrationRecord) :
    (auditStep defs st r).fm =
      if isMismatch defs r = true then
        (match st.fm with
         | none => some r.id
         | some m => if r.id < m then some r.id else some m)
      else st.fm := by
  unfold auditStep isMismatch
  cases hf : defs.find? (fun d => d.id == r.id) with
  | none => simp
  | some d =>
    by_cases hnil : r.hash = "nil"
    · simp [hnil]
    · by_cases hne : d.hash = r.hash
      · simp [hnil, hne]
      · simp [hnil, hne]

theorem audit_foldl_fm_none (defs : List MigrationDef) :
    ∀ (rs : List MigrationRecord) (st : AuditOut),
    ((rs.foldl (auditStep defs) st).fm = none ↔
      st.fm = none ∧ ∀ r ∈ rs, isMismatch defs r = false) := by
  intro rs
  induction rs with
  | nil => intro st; simp
  | cons r rs' ih =>
    intro st
    rw [List.foldl_cons, ih, auditStep_fm]
    by_cases hmm : isMismatch defs r = true
    · simp only [hmm, if_true]
      constructor
      · intro ⟨h1, _⟩
        exfalso
        cases hst : st.fm with
        | none => rw [hst] at h1; simp at h1
        | some m =>
          rw [hst] at h1
          by_cases hlt : r.id < m <;> simp [hlt] at h1
      · intro ⟨_, h2⟩
        exact absurd hmm (by simpa using h2 r (by simp))
    · have hmm' : isMismatch defs r = false := by simpa using hmm
      simp only [hmm, if_false, List.forall_mem_cons, hmm']
      constructor
      · intro ⟨h1, h2⟩; exact ⟨h1, trivial, h2⟩
      · intro ⟨h1, _, h2⟩; exact ⟨h1, h2⟩

theorem audit_fm_none_iff (defs : List MigrationDef) (records : List MigrationRecord) :
    ((audit defs records).fm = none ↔ ∀ r ∈ records, isMismatch defs r = false) := by
  unfold audit
  rw [audit_foldl_fm_none]
  simp

theorem audit_foldl_fm_min (defs : List MigrationDef) :
    ∀ (rs : List MigrationRecord) (st : AuditOut) (f : Nat),
    (rs.foldl (auditStep defs) st).fm = some f →
    (∀ r ∈ rs, isMismatch defs r = true → f ≤ r.id) ∧
    (∀ m, st.fm = some m → f ≤ m) := by
  intro rs
  induction rs with
  | nil =>
    intro st f h
    simp only [List.foldl_nil] at h
    refine ⟨by simp, fun m hm => ?_⟩
    rw [h] at hm
    exact le_of_eq (Option.some_inj.mp hm)
  | cons r rs' ih =>
    intro st f h
    rw [List.foldl_cons] at h
    obtain ⟨ih1, ih2⟩ := ih (auditStep defs st r) f h
    rw [auditStep_fm] at ih2
    constructor
    · intro s hs hmm
      rcases List.mem_cons.mp hs with rfl | hs'
      · rw [hmm, if_pos rfl] at ih2
        cases hst : st.fm with
        | none => exact ih2 s.id (by rw [hst])
        | some m =>
          by_cases hlt : s.id < m
          · exact ih2 s.id (by rw [hst]; simp [hlt])
          · exact (ih2 m (by rw [hst]; simp [hlt])).trans (Nat.le_of_not_lt hlt)
      · exact ih1 s hs' hmm
    · intro m hm
      by_cases hmm : isMismatch defs r = true
      · rw [if_pos hmm, hm] at ih2
        by_cases hlt : r.id < m
        · exact (ih2 r.id (by simp [hlt])).trans (Nat.le_of_lt hlt)
        · exact ih2 m (by simp [hlt])
      · rw [if_neg hmm] at ih2
        exact ih2 m hm

theorem audit_fm_min (defs : List MigrationDef) (records : List MigrationRecord)
    (f : Nat) (h : (audit defs records).fm = some f) :
    ∀ r ∈ records, isMismatch defs r = true → f ≤ r.id :=
  (audit_foldl_fm_min defs records ⟨records, none, []⟩ f h).1

theorem auditStep_tr (defs : List MigrationDef) (st : AuditOut) (r : MigrationRecord) :
    (auditStep defs st r).tr = st.tr ++ (auditEmit defs r).toList := by
  unfold auditStep auditEmit
  cases hf : defs.find? (fun d => d.id == r.id) with
  | none => simp
  | some d =>
    by_cases hnil : r.hash = "nil"
    · simp [hnil]
    · by_cases hne : d.hash = r.hash
      · simp [hnil, hne]
      · simp [hnil, hne]

theorem audit_foldl_tr (defs : List MigrationDef) :
    ∀ (rs : List MigrationRecord) (st : AuditOut),
    (rs.foldl (auditStep defs) st).tr = st.tr ++ rs.filterMap (auditEmit defs) := by
  intro rs
  induction rs with
  | nil => intro st; simp
  | cons r rs' ih =>
    intro st
    rw [List.foldl_cons, ih, auditStep_tr]
    cases he : auditEmit defs r with
    | none => simp [List.filterMap_cons, he]
    | some act => simp [List.filterMap_cons, he]

theorem audit_tr_eq (defs : List MigrationDef) (records : List MigrationRecord) :
    (audit defs records).tr = records.filterMap (auditEmit defs) := by
  unfold audit
  rw [audit_foldl_tr]
  simp

theorem audit_ids (defs : List MigrationDef) (records : List MigrationRecord)
    (hnd : (records.map (fun r => r.id)).Nodup) :
    (audit defs records).db.map (fun r => r.id) = records.map (fun r => r.id) := by
  rw [audit_db_eq defs records hnd, List.map_map]
  apply List.map_congr_left
  intro x _
  exact auditWrite_id defs records x

theorem filter_keepFilter_nil (l : List MigrationRecord) :
    l.filter (keepFilter []) = l := by
  induction l with
  | nil => rfl
  | cons a t ih => simp [List.filter_cons, keepFilter, ih]

/-- When every down script on the scanned head succeeds, the rollback
scan rolls back exactly the head of the descending list on which the
condition holds, filters those ids out of the table and the view, and
commits one transaction per record. -/
theorem rollbackLoop_of_ok (ok : String → Bool) (cond : MigrationRecord → Bool) :
    ∀ (desc db view : List MigrationRecord),
    (∀ r ∈ desc.takeWhile cond, ok r.down = true) →
    rollbackLoop ok cond desc db view =
      ⟨db.filter (keepFilter (desc.takeWhile cond)),
       view.filter (keepFilter (desc.takeWhile cond)),
       desc.takeWhile cond, rbTrace (desc.takeWhile cond), none⟩ := by
  intro desc
  induction desc with
  | nil =>
    intro db view _
    simp only [rollbackLoop, List.takeWhile_nil]
    rw [filter_keepFilter_nil, filter_keepFilter_nil]
    rfl
  | cons r rest ih =>
    intro db view hok
    rw [List.takeWhile_cons]
    by_cases hc : cond r
    · have hokr : ok r.down = true := by
        apply hok
        rw [List.takeWhile_cons, if_pos hc]
        simp
      have hok' : ∀ s ∈ rest.takeWhile cond, ok s.down = true := by
        intro s hs
        apply hok
        rw [List.takeWhile_cons, if_pos hc]
        exact List.mem_cons_of_mem _ hs
      simp only [rollbackLoop, hc, hokr, if_true]
      rw [ih _ _ hok']
      have hdb : ∀ l : List MigrationRecord,
          (l.filter (fun x => x.id != r.id)).filter (keepFilter (rest.takeWhile cond)) =
          l.filter (keepFilter (r :: rest.takeWhile cond)) := by
        intro l
        rw [List.filter_filter]
        apply List.filter_congr
        intro x _
        simp [keepFilter, List.all_cons, Bool.and_comm]
      rw [hdb db, hdb view]
      simp [rbTrace]
    · simp only [rollbackLoop, hc, if_false, Bool.false_eq_true]
      rw [filter_keepFilter_nil, filter_keepFilter_nil]
      rfl

theorem rollbackLoop_err_none_iff (ok : String → Bool) (cond : MigrationRecord → Bool) :
    ∀ (desc db view : List MigrationRecord),
    ((rollbackLoop ok cond desc db view).err = none ↔
      ∀ r ∈ desc.takeWhile cond, ok r.down = true) := by
  intro desc
  induction desc with
  | nil => intro db view; simp [rollbackLoop]
  | cons r rest ih =>
    intro db view
    by_cases hc : cond r
    · by_cases hokr : ok r.down = true
      · simp only [rollbackLoop, hc, hokr, if_true, List.takeWhile_cons,
          List.forall_mem_cons]
        rw [ih]
        simp [hokr]
      · simp only [rollbackLoop, hc, hokr, if_true, Bool.false_eq_true, if_false,
          List.takeWhile_cons, List.forall_mem_cons]
        simp [hokr, hc]
    · simp only [rollbackLoop, hc, if_false, Bool.false_eq_true, List.takeWhile_cons]
      simp [hc]

theorem rollbackLoop_tr_no_update (ok : String → Bool) (cond : MigrationRecord → Bool) :
    ∀ (desc db view : List MigrationRecord) (i : Nat) (h : String),
    Action.updateHash i h ∉ (rollbackLoop ok cond desc db view).tr := by
  intro desc
  induction desc with
  | nil => intro db view i h; simp [rollbackLoop]
  | cons r rest ih =>
    intro db view i h
    by_cases hc : cond r
    · by_cases hokr : ok r.down = true
      · simp only [rollbackLoop, hc, hokr, if_true, List.mem_append]
        intro hmem
        rcases hmem with hmem | hmem
        · simp at hmem
        · exact ih _ _ i h hmem
      · simp only [rollbackLoop, hc, hokr, if_true, Bool.false_eq_true, if_false]
        simp
    · simp [rollbackLoop, hc]

theorem rollbackLoop_rb_block (ok : String → Bool) (cond : MigrationRecord → Bool) :
    ∀ (desc db view : List MigrationRecord) (r : MigrationRecord),
    r ∈ (rollbackLoop ok cond desc db view).rb →
    r ∈ desc ∧ ∃ t₁ t₂, (rollbackLoop ok cond desc db view).tr =
      t₁ ++ [Action.beginTx, Action.execScript r.down, Action.deleteRec r.id,
        Action.commitTx] ++ t₂ := by
  intro desc
  induction desc with
  | nil => intro db view r hmem; simp [rollbackLoop] at hmem
  | cons r₀ rest ih =>
    intro db view r hmem
    by_cases hc : cond r₀
    · by_cases hokr : ok r₀.down = true
      · simp only [rollbackLoop, hc, hokr, if_true] at hmem ⊢
        rcases List.mem_cons.mp hmem with rfl | hmem'
        · refine ⟨List.mem_cons_self _ _, [],
            (rollbackLoop ok cond rest (db.filter (fun x => x.id != r.id))
              (view.filter (fun x => x.id != r.id))).tr, by simp⟩
        · obtain ⟨hm, t₁, t₂, htr⟩ := ih _ _ r hmem'
          refine ⟨List.mem_cons_of_mem _ hm,
            [Action.beginTx, Action.execScript r₀.down, Action.deleteRec r₀.id,
              Action.commitTx] ++ t₁, t₂, ?_⟩
          rw [htr]
          simp
      · simp only [rollbackLoop, hc, hokr, if_true, Bool.false_eq_true, if_false] at hmem
        simp at hmem
    · simp [rollbackLoop, hc] at hmem

/-! ## Apply phase lemmas -/
theorem applyLoop_db_eq (ok : String → Bool) (vd : Bool) (lastId : Nat) :
    ∀ (defs : List MigrationDef) (db : List MigrationRecord),
    (applyLoop ok vd lastId defs db).db =
      db ++ ((applyLoop ok vd lastId defs db).applied).map toRecord := by
  intro defs
  induction defs with
  | nil => intro db; simp [applyLoop]
  | cons d rest ih =>
    intro db
    by_cases helig : lastId < d.id
    · by_cases hup : ok d.up = true
      · by_cases hvd : (vd && !(ok d.down)) = true
        · simp [applyLoop, helig, hup, hvd]
        · by_cases hconf : db.any (fun x => x.id == d.id)
          · simp [applyLoop, helig, hup, hvd, hconf]
          · simp only [applyLoop, helig, hup, hvd, hconf, if_true, if_false,
              Bool.false_eq_true]
            rw [ih]
            simp
      · simp [applyLoop, helig, hup]
    · simp only [applyLoop, helig, if_false]
      exact ih db

theorem applyLoop_applied_elig (ok : String → Bool) (vd : Bool) (lastId : Nat) :
    ∀ (defs : List MigrationDef) (db : List MigrationRecord) (d : MigrationDef),
    d ∈ (applyLoop ok vd lastId defs db).applied → lastId < d.id ∧ d ∈ defs := by
  intro defs
  induction defs with
  | nil => intro db d h; simp [applyLoop] at h
  | cons d₀ rest ih =>
    intro db d h
    by_cases helig : lastId < d₀.id
    · by_cases hup : ok d₀.up = true
      · by_cases hvd : (vd && !(ok d₀.down)) = true
        · simp [applyLoop, helig, hup, hvd] at h
        · by_cases hconf : db.any (fun x => x.id == d₀.id)
          · simp [applyLoop, helig, hup, hvd, hconf] at h
          · simp only [applyLoop, helig, hup, hvd, hconf, if_true, if_false,
              Bool.false_eq_true] at h
            rcases List.mem_cons.mp h with rfl | h'
            · exact ⟨helig, by simp⟩
            · obtain ⟨h1, h2⟩ := ih _ _ h'
              exact ⟨h1, List.mem_cons_of_mem _ h2⟩
      · simp [applyLoop, helig, hup] at h
    · simp only [applyLoop, helig, if_false] at h
      obtain ⟨h1, h2⟩ := ih _ _ h
      exact ⟨h1, List.mem_cons_of_mem _ h2⟩

theorem applyLoop_skip (ok : String → Bool) (vd : Bool) (lastId : Nat) :
    ∀ (defs : List MigrationDef) (db : List MigrationRecord),
    (∀ d ∈ defs, ¬lastId < d.id) →
    applyLoop ok vd lastId defs db = ⟨db, [], [], none⟩ := by
  intro defs
  induction defs with
  | nil => intro db _; rfl
  | cons d rest ih =>
    intro db h
    have hd : ¬lastId < d.id := h d (by simp)
    simp only [applyLoop, hd, if_false]
    exact ih db (fun e he => h e (List.mem_cons_of_mem _ he))

theorem applyLoop_applied_of_err_none (ok : String → Bool) (vd : Bool) (lastId : Nat) :
    ∀ (defs : List MigrationDef) (db : List MigrationRecord),
    (applyLoop ok vd lastId defs db).err = none →
    (applyLoop ok vd lastId defs db).applied =
      defs.filter (fun d => decide (lastId < d.id)) := by
  intro defs
  induction defs with
  | nil => intro db _; simp [applyLoop]
  | cons d rest ih =>
    intro db herr
    by_cases helig : lastId < d.id
    · by_cases hup : ok d.up = true
      · by_cases hvd : (vd && !(ok d.down)) = true
        · simp [applyLoop, helig, hup, hvd] at herr
        · by_cases hconf : db.any (fun x => x.id == d.id)
          · simp [applyLoop, helig, hup, hvd, hconf] at herr
          · simp only [applyLoop, helig, hup, hvd, hconf, if_true, if_false,
              Bool.false_eq_true] at herr ⊢
            rw [List.filter_cons_of_pos (by simpa using helig), ih _ herr]
      · simp [applyLoop, helig, hup] at herr
    · simp only [applyLoop, helig, if_false] at herr ⊢
      rw [List.filter_cons_of_neg (by simpa using helig), ih _ herr]

theorem applyLoop_sorted (ok : String → Bool) (vd : Bool) (lastId : Nat) :
    ∀ (defs : List MigrationDef) (db : List MigrationRecord),
    (applyLoop ok vd lastId defs db).err = none →
    db.Pairwise (fun a b => a.id < b.id) →
    (∀ x ∈ db, ∀ d ∈ defs, lastId < d.id → x.id ≤ d.id) →
    defs.Pairwise (fun a b => a.id ≤ b.id) →
    (applyLoop ok vd lastId defs db).db.Pairwise (fun a b => a.id < b.id) := by
  intro defs
  induction defs with
  | nil => intro db _ hdb _ _; simpa [applyLoop] using hdb
  | cons d rest ih =>
    intro db herr hdb hbound hdefs
    by_cases helig : lastId < d.id
    · by_cases hup : ok d.up = true
      · by_cases hvd : (vd && !(ok d.down)) = true
        · simp [applyLoop, helig, hup, hvd] at herr
        · by_cases hconf : db.any (fun x => x.id == d.id)
          · simp [applyLoop, helig, hup, hvd, hconf] at herr
          · simp only [applyLoop, helig, hup, hvd, hconf, if_true, if_false,
              Bool.false_eq_true] at herr ⊢
            have hanyf : db.any (fun x => x.id == d.id) = false := by
              simpa using hconf
            have hfresh : ∀ x ∈ db, ¬(x.id = d.id) := by
              intro x hx
              simpa using List.any_eq_false.mp hanyf x hx
            have hdb' : (db ++ [toRecord d]).Pairwise (fun a b => a.id < b.id) := by
              rw [List.pairwise_append]
              refine ⟨hdb, by simp, ?_⟩
              intro x hx y hy
              rcases List.mem_singleton.mp hy with rfl
              exact lt_of_le_of_ne (hbound x hx d (by simp) helig) (hfresh x hx)
            have hbound' : ∀ x ∈ db ++ [toRecord d], ∀ e ∈ rest,
                lastId < e.id → x.id ≤ e.id := by
              intro x hx e he helig'
              rcases List.mem_append.mp hx with hx' | hx'
              · exact hbound x hx' e (List.mem_cons_of_mem _ he) helig'
              · rcases List.mem_singleton.mp hx' with rfl
                exact List.rel_of_pairwise_cons hdefs he
            exact ih _ herr hdb' hbound' hdefs.of_cons
      · simp [applyLoop, helig, hup] at herr
    · simp only [applyLoop, helig, if_false] at herr ⊢
      exact ih _ herr hdb
        (fun x hx e he => hbound x hx e (List.mem_cons_of_mem _ he)) hdefs.of_cons

theorem applyLoop_no_conflict (ok : String → Bool) (vd : Bool) (lastId : Nat) :
    ∀ (defs : List MigrationDef) (db : List MigrationRecord),
    (∀ x ∈ db, ∀ d ∈ defs, lastId < d.id → x.id < d.id) →
    defs.Pairwise (fun a b => a.id < b.id) →
    ∀ i, (applyLoop ok vd lastId defs db).err ≠ some (RunError.insertConflict i) := by
  intro defs
  induction defs with
  | nil => intro db _ _ i; simp [applyLoop]
  | cons d rest ih =>
    intro db hbound hdefs i
    by_cases helig : lastId < d.id
    · by_cases hup : ok d.up = true
      · have hconf : db.any (fun x => x.id == d.id) = false :=
          List.any_eq_false.mpr (fun x hx => by
            simpa using Nat.ne_of_lt (hbound x hx d (by simp) helig))
        by_cases hvd : (vd && !(ok d.down)) = true
        · simp [applyLoop, helig, hup, hvd]
        · simp only [applyLoop, helig, hup, hvd, hconf, if_true, if_false,
            Bool.false_eq_true]
          have hbound' : ∀ x ∈ db ++ [toRecord d], ∀ e ∈ rest,
              lastId < e.id → x.id < e.id := by
            intro x hx e he helig'
            rcases List.mem_append.mp hx with hx' | hx'
            · exact hbound x hx' e (List.mem_cons_of_mem _ he) helig'
            · rcases List.mem_singleton.mp hx' with rfl
              exact List.rel_of_pairwise_cons hdefs he
          exact ih _ hbound' hdefs.of_cons i
      · simp [applyLoop, helig, hup]
    · simp only [applyLoop, helig, if_false]
      exact ih _ (fun x hx e he => hbound x hx e (List.mem_cons_of_mem _ he))
        hdefs.of_cons i

theorem applyLoop_applied_down_ok (ok : String → Bool) (lastId : Nat) :
    ∀ (defs : List MigrationDef) (db : List MigrationRecord),
    (applyLoop ok true lastId defs db).err = none →
    ∀ d ∈ (applyLoop ok true lastId defs db).applied, ok d.down = true := by
  intro defs
  induction defs with
  | nil => intro db _ d h; simp [applyLoop] at h
  | cons d₀ rest ih =>
    intro db herr d h
    by_cases helig : lastId < d₀.id
    · by_cases hup : ok d₀.up = true
      · by_cases hdn : ok d₀.down = true
        · have hvd : (true && !(ok d₀.down)) = false := by simp [hdn]
          by_cases hconf : db.any (fun x => x.id == d₀.id)
          · simp [applyLoop, helig, hup, hvd, hconf] at herr
          · simp only [applyLoop, helig, hup, hvd, hconf, if_true, if_false,
              Bool.false_eq_true] at herr h
            rcases List.mem_cons.mp h with rfl | h'
            · exact hdn
            · exact ih _ herr d h'
        · have hvd : (true && !(ok d₀.down)) = true := by
            simp [Bool.not_eq_true] at hdn ⊢
            exact hdn
          simp [applyLoop, helig, hup, hvd] at herr
      · simp [applyLoop, helig, hup] at herr
    · simp only [applyLoop, helig, if_false] at herr h
      exact ih _ herr d h

theorem applyLoop_tr_no_update (ok : String → Bool) (vd : Bool) (lastId : Nat) :
    ∀ (defs : List MigrationDef) (db : List MigrationRecord) (i : Nat) (h : String),
    Action.updateHash i h ∉ (applyLoop ok vd lastId defs db).tr := by
  intro defs
  induction defs with
  | nil => intro db i h; simp [applyLoop]
  | cons d rest ih =>
    intro db i h
    by_cases helig : lastId < d.id
    · by_cases hup : ok d.up = true
      · by_cases hvd : (vd && !(ok d.down)) = true
        · simp [applyLoop, helig, hup, hvd]
        · have hdno : vd = true → ok d.down = true := by
            intro hv
            rcases Bool.eq_false_or_eq_true (ok d.down) with hd | hd
            · exact hd
            · exact absurd (by simp [hv, hd]) hvd
          by_cases hconf : db.any (fun x => x.id == d.id)
          · by_cases hvd' : vd
            · subst hvd'
              simp [applyLoop, helig, hup, hdno rfl, hconf]
            · simp only [Bool.not_eq_true] at hvd'
              subst hvd'
              simp [applyLoop, helig, hup, hconf]
          · by_cases hvd' : vd
            · subst hvd'
              simp [applyLoop, helig, hup, hdno rfl, hconf, ih]
            · simp only [Bool.not_eq_true] at hvd'
              subst hvd'
              simp [applyLoop, helig, hup, hconf, ih]
      · simp [applyLoop, helig, hup]
    · simp only [applyLoop, helig, if_false]
      exact ih _ i h

/-! ## Support lemmas about listings and the run plumbing -/
theorem mem_of_getLast?' {α : Type} :
    ∀ {l : List α} {a : α}, l.getLast? = some a → a ∈ l := by
  intro l
  induction l with
  | nil => intro a h; simp at h
  | cons b t ih =>
    intro a h
    cases t with
    | nil =>
      simp only [List.getLast?_singleton, Option.some_inj] at h
      simp [h]
    | cons c t' =>
      rw [List.getLast?_cons_cons] at h
      exact List.mem_cons_of_mem _ (ih h)

theorem le_lastIdOfView :
    ∀ {l : List MigrationRecord}, l.Pairwise (fun a b => a.id ≤ b.id) →
    ∀ x ∈ l, x.id ≤ lastIdOfView l := by
  intro l
  induction l with
  | nil => intro _ x hx; simp at hx
  | cons a t ih =>
    intro hs x hx
    cases t with
    | nil =>
      rcases List.mem_cons.mp hx with rfl | hx'
      · simp [lastIdOfView]
      · simp at hx'
    | cons c t' =>
      have hlast : lastIdOfView (a :: c :: t') = lastIdOfView (c :: t') := by
        unfold lastIdOfView
        rw [List.getLast?_cons_cons]
      rw [hlast]
      rcases List.mem_cons.mp hx with rfl | hx'
      · cases hy : (c :: t').getLast? with
        | none => simp at hy
        | some y =>
          have hmem : y ∈ c :: t' := mem_of_getLast?' hy
          have : x.id ≤ y.id := List.rel_of_pairwise_cons hs hmem
          unfold lastIdOfView
          rw [hy]
          exact this
      · exact ih hs.of_cons x hx'

theorem find?_id_self {l : List MigrationRecord}
    (hnd : (l.map (fun r => r.id)).Nodup) :
    ∀ {y : MigrationRecord}, y ∈ l → l.find? (fun s => s.id == y.id) = some y := by
  induction l with
  | nil => intro y hy; simp at hy
  | cons a t ih =>
    intro y hy
    have hnd' : (a.id :: t.map (fun r => r.id)).Nodup := by simpa using hnd
    have hcons := List.nodup_cons.mp hnd'
    rcases List.mem_cons.mp hy with rfl | hy'
    · exact List.find?_cons_of_pos _ (by simp)
    · have hne : ¬((fun s : MigrationRecord => s.id == y.id) a) = true := by
        simp only [beq_iff_eq]
        intro he
        exact hcons.1 (he ▸ List.mem_map_of_mem (fun r => r.id) hy')
      rw [@List.find?_cons_of_neg _ (fun s : MigrationRecord => s.id == y.id) a t hne]
      exact ih hcons.2 hy'

theorem find?_id_self_def {l : List MigrationDef}
    (hnd : (l.map (fun d => d.id)).Nodup) :
    ∀ {d : MigrationDef}, d ∈ l → l.find? (fun e => e.id == d.id) = some d := by
  induction l with
  | nil => intro d hd; simp at hd
  | cons a t ih =>
    intro d hd
    have hnd' : (a.id :: t.map (fun d => d.id)).Nodup := by simpa using hnd
    have hcons := List.nodup_cons.mp hnd'
    rcases List.mem_cons.mp hd with rfl | hd'
    · exact List.find?_cons_of_pos _ (by simp)
    · have hne : ¬((fun e : MigrationDef => e.id == d.id) a) = true := by
        simp only [beq_iff_eq]
        intro he
        exact hcons.1 (he ▸ List.mem_map_of_mem (fun e => e.id) hd')
      rw [@List.find?_cons_of_neg _ (fun e : MigrationDef => e.id == d.id) a t hne]
      exact ih hcons.2 hd'

theorem eq_of_mem_of_id_eq :
    ∀ {l : List MigrationRecord}, (l.map (fun r => r.id)).Nodup →
    ∀ {r s : MigrationRecord}, r ∈ l → s ∈ l → r.id = s.id → r = s := by
  intro l
  induction l with
  | nil => intro _ r s hr; simp at hr
  | cons a t ih =>
    intro hnd r s hr hs hid
    have hnd' : (a.id :: t.map (fun r => r.id)).Nodup := by simpa using hnd
    have hcons := List.nodup_cons.mp hnd'
    rcases List.mem_cons.mp hr with rfl | hr' <;> rcases List.mem_cons.mp hs with rfl | hs'
    · rfl
    · exact absurd (hid.symm ▸ List.mem_map_of_mem (fun x => x.id) hs') hcons.1
    · exact absurd (hid ▸ List.mem_map_of_mem (fun x => x.id) hr') hcons.1
    · exact ih hcons.2 hr' hs' hid

theorem migrate_eq_core (cfg : Config) (ok : String → Bool) (defs : List MigrationDef)
    (records : List MigrationRecord) (lastDef : MigrationDef)
    (h : defs.getLast? = some lastDef) :
    migrate cfg ok defs records = migrateCore cfg ok defs records lastDef := by
  unfold migrate
  rw [h]

theorem migrateCore_rolledBack (cfg : Config) (ok : String → Bool)
    (defs : List MigrationDef) (records : List MigrationRecord) (lastDef : MigrationDef) :
    (migrateCore cfg ok defs records lastDef).rolledBack =
      (runRollback cfg ok defs records lastDef).rb := by
  unfold migrateCore
  cases (runRollback cfg ok defs records lastDef).err with
  | some e => rfl
  | none => rfl

theorem migrateCore_tr (cfg : Config) (ok : String → Bool)
    (defs : List MigrationDef) (records : List MigrationRecord) (lastDef : MigrationDef) :
    (migrateCore cfg ok defs records lastDef).tr =
      (audit defs records).tr ++ (runRollback cfg ok defs records lastDef).tr ++
      (match (runRollback cfg ok defs records lastDef).err with
       | some _ => []
       | none => (runApply cfg ok defs records lastDef).tr) := by
  unfold migrateCore
  cases (runRollback cfg ok defs records lastDef).err with
  | some e => simp
  | none => simp

theorem migrateCore_err_none (cfg : Config) (ok : String → Bool)
    (defs : List MigrationDef) (records : List MigrationRecord) (lastDef : MigrationDef)
    (h : (migrateCore cfg ok defs records lastDef).err = none) :
    (runRollback cfg ok defs records lastDef).err = none ∧
    (runApply cfg ok defs records lastDef).err = none := by
  unfold migrateCore at h
  cases herr : (runRollback cfg ok defs records lastDef).err with
  | some e => rw [herr] at h; simp at h
  | none => rw [herr] at h; exact ⟨rfl, h⟩

theorem migrateCore_db_of_rb_ok (cfg : Config) (ok : String → Bool)
    (defs : List MigrationDef) (records : List MigrationRecord) (lastDef : MigrationDef)
    (h : (runRollback cfg ok defs records lastDef).err = none) :
    (migrateCore cfg ok defs records lastDef).db =
      (runApply cfg ok defs records lastDef).db ∧
    (migrateCore cfg ok defs records lastDef).applied =
      (runApply cfg ok defs records lastDef).applied ∧
    (migrateCore cfg ok defs records lastDef).err =
      (runApply cfg ok defs records lastDef).err := by
  unfold migrateCore
  rw [h]
  exact ⟨rfl, rfl, rfl⟩

theorem migrateCore_applied_of_rb_err (cfg : Config) (ok : String → Bool)
    (defs : List MigrationDef) (records : List MigrationRecord) (lastDef : MigrationDef)
    (e : RunError) (h : (runRollback cfg ok defs records lastDef).err = some e) :
    (migrateCore cfg ok defs records lastDef).applied = [] ∧
    (migrateCore cfg ok defs records lastDef).err = some e := by
  unfold migrateCore
  rw [h]
  exact ⟨rfl, rfl⟩

theorem rollbackLoop_err_shape (ok : String → Bool) (cond : MigrationRecord → Bool) :
    ∀ (desc db view : List MigrationRecord),
    (rollbackLoop ok cond desc db view).err = none ∨
    ∃ s, (rollbackLoop ok cond desc db view).err = some (RunError.scriptFailed s) := by
  intro desc
  induction desc with
  | nil => intro db view; left; rfl
  | cons r rest ih =>
    intro db view
    by_cases hc : cond r
    · by_cases hokr : ok r.down = true
      · simp only [rollbackLoop, hc, hokr, if_true]
        exact ih _ _
      · simp only [rollbackLoop, hc, hokr, if_true, Bool.false_eq_true, if_false]
        right
        exact ⟨r.down, rfl⟩
    · simp [rollbackLoop, hc]

/-- The rollback phase of a run whose scan completed without a script
failure, on a strictly ascending ledger listing: the rolled-back records
are the condition-satisfying head of the reversed listing, and both the
table and the view lose exactly those rows (the table having first been
audited). -/
theorem runRollback_struct (cfg : Config) (ok : String → Bool)
    (defs : List MigrationDef) (records : List MigrationRecord) (lastDef : MigrationDef)
    (hrec : records.Pairwise (fun a b => a.id < b.id))
    (herr : (runRollback cfg ok defs records lastDef).err = none) :
    runRollback cfg ok defs records lastDef =
      ⟨((records.filter (keepFilter (records.reverse.takeWhile
          (rollbackCond cfg defs (audit defs records).fm lastDef.id)))).map
            (auditWrite defs records)),
       records.filter (keepFilter (records.reverse.takeWhile
          (rollbackCond cfg defs (audit defs records).fm lastDef.id))),
       records.reverse.takeWhile
          (rollbackCond cfg defs (audit defs records).fm lastDef.id),
       rbTrace (records.reverse.takeWhile
          (rollbackCond cfg defs (audit defs records).fm lastDef.id)),
       none⟩ := by
  have hnd : (records.map (fun r => r.id)).Nodup :=
    List.pairwise_map.mpr (hrec.imp (fun hab => Nat.ne_of_lt hab))
  have hsort : sortDescById records = records.reverse := sortDescById_eq_reverse hrec
  have hok : ∀ r ∈ (sortDescById records).takeWhile
      (rollbackCond cfg defs (audit defs records).fm lastDef.id), ok r.down = true := by
    apply (rollbackLoop_err_none_iff ok _ (sortDescById records)
      (audit defs records).db records).mp
    exact herr
  unfold runRollback at herr ⊢
  rw [hsort] at hok ⊢
  rw [rollbackLoop_of_ok ok _ records.reverse (audit defs records).db records hok]
  have hdb : (audit defs records).db.filter (keepFilter (records.reverse.takeWhile
      (rollbackCond cfg defs (audit defs records).fm lastDef.id))) =
      (records.filter (keepFilter (records.reverse.takeWhile
        (rollbackCond cfg defs (audit defs records).fm lastDef.id)))).map
          (auditWrite defs records) := by
    rw [audit_db_eq defs records hnd, List.filter_map]
    have hcomp : ∀ x ∈ records,
        ((keepFilter (records.reverse.takeWhile
          (rollbackCond cfg defs (audit defs records).fm lastDef.id))) ∘
            (auditWrite defs records)) x =
        keepFilter (records.reverse.takeWhile
          (rollbackCond cfg defs (audit defs records).fm lastDef.id)) x := by
      intro x _
      simp only [Function.comp]
      unfold keepFilter
      rw [auditWrite_id]
    rw [List.filter_congr hcomp]
  rw [hdb]

theorem auditEmit_eq_some (defs : List MigrationDef) (r : MigrationRecord)
    (i : Nat) (hsh : String) :
    (auditEmit defs r = some (Action.updateHash i hsh) ↔
      r.id = i ∧ r.hash = "nil" ∧
        ∃ d, defs.find? (fun d => d.id == r.id) = some d ∧ d.hash = hsh) := by
  unfold auditEmit
  cases hf : defs.find? (fun d => d.id == r.id) with
  | none => simp
  | some d =>
    by_cases hnil : r.hash = "nil"
    · simp only [hnil, if_true, Option.some_inj]
      constructor
      · intro h
        obtain ⟨h1, h2⟩ := Action.updateHash.inj h
        exact ⟨h1, trivial, d, rfl, h2⟩
      · intro ⟨h1, _, d', hd', h2⟩
        rw [h1, hd', h2]
    · simp [hnil]

/-! ## The rollback phase ignores the definitions' down scripts -/
theorem auditStep_mapDown (f : MigrationDef → String) (defs : List MigrationDef)
    (st : AuditOut) (r : MigrationRecord) :
    auditStep (defs.map (fun d => { d with down := f d })) st r = auditStep defs st r := by
  unfold auditStep
  rw [List.find?_map]
  have hp : ((fun d : MigrationDef => d.id == r.id) ∘ (fun d => { d with down := f d })) =
      (fun d : MigrationDef => d.id == r.id) := by
    funext d
    rfl
  rw [hp]
  cases hf : defs.find? (fun d => d.id == r.id) with
  | none => rfl
  | some d => rfl

theorem audit_mapDown (f : MigrationDef → String) (defs : List MigrationDef)
    (records : List MigrationRecord) :
    audit (defs.map (fun d => { d with down := f d })) records = audit defs records := by
  unfold audit
  have h : auditStep (defs.map (fun d => { d with down := f d })) = auditStep defs :=
    funext (fun st => funext (fun r => auditStep_mapDown f defs st r))
  rw [h]

theorem condDeleted_mapDown (f : MigrationDef → String) (defs : List MigrationDef)
    (r : MigrationRecord) :
    condDeleted (defs.map (fun d => { d with down := f d })) r = condDeleted defs r := by
  unfold condDeleted
  rw [List.any_map]
  rfl

theorem rollbackCond_mapDown (f : MigrationDef → String) (cfg : Config)
    (defs : List MigrationDef) (fm : Option Nat) (lastDefId : Nat) :
    rollbackCond cfg (defs.map (fun d => { d with down := f d })) fm lastDefId =
      rollbackCond cfg defs fm lastDefId := by
  funext r
  unfold rollbackCond
  rw [condDeleted_mapDown]

theorem runRollback_mapDown (f : MigrationDef → String) (cfg : Config)
    (ok : String → Bool) (defs : List MigrationDef) (records : List MigrationRecord)
    (lastDef : MigrationDef) :
    runRollback cfg ok (defs.map (fun d => { d with down := f d })) records
      { lastDef with down := f lastDef } =
    runRollback cfg ok defs records lastDef := by
  unfold runRollback
  rw [audit_mapDown, rollbackCond_mapDown]

/-! ## Claim C2 -/
/-- C2 counterexample: the claim says that with `checkHash` disabled no
sentinel-valued hash row is backfilled and the ledger's hash fields are
left unchanged by the audit step. In the code the audit loop runs
unconditionally: on a run with `checkHash = false`, a ledger row with the
sentinel hash `'nil'` and a matching definition ends with its hash field
rewritten to the definition's hash, and the UPDATE appears in the trace. -/
theorem c2_counterexample :
    ((⟨false, true, Force.off⟩ : Config).checkHash = false) ∧
    (migrate ⟨false, true, Force.off⟩ (fun _ => true)
      [⟨1, "a", "u", "d", "hh"⟩] [⟨1, "a", "u", "d", "nil"⟩]).db =
      [⟨1, "a", "u", "d", "hh"⟩] ∧
    Action.updateHash 1 "hh" ∈ (migrate ⟨false, true, Force.off⟩ (fun _ => true)
      [⟨1, "a", "u", "d", "hh"⟩] [⟨1, "a", "u", "d", "nil"⟩]).tr := by
  refine ⟨rfl, by decide, by decide⟩

/-- C2 (amended): the audit scan runs on every run regardless of
`checkHash` (which only gates whether a detected mismatch forces
rollbacks): on any run with a non-empty definition list, a hash-backfill
UPDATE with id `i` and hash `hsh` is issued exactly for the listed records
with id `i` whose stored hash is the sentinel `'nil'` and whose id is
found among the definitions with hash `hsh`. -/
theorem c2_amended_audit_unconditional (cfg : Config) (ok : String → Bool)
    (defs : List MigrationDef) (records : List MigrationRecord)
    (hne : defs ≠ []) (i : Nat) (hsh : String) :
    (Action.updateHash i hsh ∈ (migrate cfg ok defs records).tr ↔
      ∃ r ∈ records, r.id = i ∧ r.hash = "nil" ∧
        ∃ d, defs.find? (fun d => d.id == r.id) = some d ∧ d.hash = hsh) := by
  cases hlast : defs.getLast? with
  | none => exact absurd (List.getLast?_eq_none_iff.mp hlast) hne
  | some lastDef =>
    rw [migrate_eq_core cfg ok defs records lastDef hlast, migrateCore_tr]
    constructor
    · intro h
      rcases List.mem_append.mp h with h' | h'
      · rcases List.mem_append.mp h' with h'' | h''
        · rw [audit_tr_eq] at h''
          obtain ⟨r, hr, he⟩ := List.mem_filterMap.mp h''
          exact ⟨r, hr, (auditEmit_eq_some defs r i hsh).mp he⟩
        · exfalso
          exact rollbackLoop_tr_no_update ok
            (rollbackCond cfg defs (audit defs records).fm lastDef.id)
            (sortDescById records) (audit defs records).db records i hsh
            (by simpa [runRollback] using h'')
      · exfalso
        cases herr : (runRollback cfg ok defs records lastDef).err with
        | some e => rw [herr] at h'; simp at h'
        | none =>
          rw [herr] at h'
          exact applyLoop_tr_no_update ok cfg.validateDown
            (lastIdOfView (runRollback cfg ok defs records lastDef).view) defs
            (runRollback cfg ok defs records lastDef).db i hsh
            (by simpa [runApply] using h')
    · intro ⟨r, hr, hprops⟩
      apply List.mem_append_left
      apply List.mem_append_left
      rw [audit_tr_eq]
      exact List.mem_filterMap.mpr ⟨r, hr, (auditEmit_eq_some defs r i hsh).mpr hprops⟩

/-- Witness for the amended C2 at a concrete run. -/
theorem c2_witness :
    (([⟨1, "a", "u", "d", "hh"⟩] : List MigrationDef) ≠ []) ∧
    (Action.updateHash 1 "hh" ∈ (migrate ⟨true, true, Force.off⟩ (fun _ => true)
        [⟨1, "a", "u", "d", "hh"⟩] [⟨1, "a", "u", "d", "nil"⟩]).tr ↔
      ∃ r ∈ [(⟨1, "a", "u", "d", "nil"⟩ : MigrationRecord)], r.id = 1 ∧ r.hash = "nil" ∧
        ∃ d, ([⟨1, "a", "u", "d", "hh"⟩] : List MigrationDef).find?
          (fun d => d.id == r.id) = some d ∧ d.hash = "hh") :=
  ⟨by decide, c2_amended_audit_unconditional ⟨true, true, Force.off⟩ (fun _ => true)
    [⟨1, "a", "u", "d", "hh"⟩] [⟨1, "a", "u", "d", "nil"⟩] (by decide) 1 "hh"⟩

/-! ## Claim C9 -/
/-- C9: every rollback executes the `down` field stored in the ledger
record, never the current source definition's down script. First
conjunct: replacing every definition's down script by anything leaves
the run's rolled-back records unchanged (the rollback phase never reads
them). Second conjunct: each rolled-back record is one of the listed
ledger rows, and the run's trace contains its rollback transaction
executing exactly the record's stored down script. -/
theorem c9_rollback_uses_recorded_down :
    (∀ (f : MigrationDef → String) (cfg : Config) (ok : String → Bool)
       (defs : List MigrationDef) (records : List MigrationRecord),
       (migrate cfg ok (defs.map (fun d => { d with down := f d })) records).rolledBack =
         (migrate cfg ok defs records).rolledBack) ∧
    (∀ (cfg : Config) (ok : String → Bool) (defs : List MigrationDef)
       (records : List MigrationRecord) (r : MigrationRecord),
       r ∈ (migrate cfg ok defs records).rolledBack →
       r ∈ records ∧ ∃ t₁ t₂, (migrate cfg ok defs records).tr =
         t₁ ++ [Action.beginTx, Action.execScript r.down, Action.deleteRec r.id,
           Action.commitTx] ++ t₂) := by
  constructor
  · intro f cfg ok defs records
    cases hlast : defs.getLast? with
    | none =>
      have hlast' : (defs.map (fun d => { d with down := f d })).getLast? = none := by
        rw [List.getLast?_map, hlast]
        rfl
      unfold migrate
      rw [hlast, hlast']
    | some lastDef =>
      have hlast' : (defs.map (fun d => { d with down := f d })).getLast? =
          some { lastDef with down := f lastDef } := by
        rw [List.getLast?_map, hlast]
        rfl
      rw [migrate_eq_core _ _ _ _ _ hlast, migrate_eq_core _ _ _ _ _ hlast',
        migrateCore_rolledBack, migrateCore_rolledBack, runRollback_mapDown]
  · intro cfg ok defs records r hmem
    cases hlast : defs.getLast? with
    | none =>
      unfold migrate at hmem
      rw [hlast] at hmem
      simp at hmem
    | some lastDef =>
      rw [migrate_eq_core _ _ _ _ _ hlast] at hmem ⊢
      rw [migrateCore_rolledBack] at hmem
      obtain ⟨hmem', t₁, t₂, htr⟩ := rollbackLoop_rb_block ok
        (rollbackCond cfg defs (audit defs records).fm lastDef.id)
        (sortDescById records) (audit defs records).db records r
        (by simpa [runRollback] using hmem)
      constructor
      · exact ((List.perm_insertionSort _ records).mem_iff).mp hmem'
      · rw [migrateCore_tr]
        refine ⟨(audit defs records).tr ++ t₁,
          t₂ ++ (match (runRollback cfg ok defs records lastDef).err with
                 | some _ => []
                 | none => (runApply cfg ok defs records lastDef).tr), ?_⟩
        have htr' : (runRollback cfg ok defs records lastDef).tr =
            t₁ ++ [Action.beginTx, Action.execScript r.down, Action.deleteRec r.id,
              Action.commitTx] ++ t₂ := by
          simpa [runRollback] using htr
        rw [htr']
        simp

/-- Witness for C9 at a concrete run (a deleted source file: the record's
own down script is the one executed). -/
theorem c9_witness :
    ((⟨2, "b", "u2", "dn2", "h2"⟩ : MigrationRecord) ∈
      (migrate ⟨false, true, Force.off⟩ (fun _ => true) [⟨1, "a", "u1", "dn1", "h1"⟩]
        [⟨1, "a", "u1", "dn1", "h1"⟩, ⟨2, "b", "u2", "dn2", "h2"⟩]).rolledBack) ∧
    ((⟨2, "b", "u2", "dn2", "h2"⟩ : MigrationRecord) ∈
      ([⟨1, "a", "u1", "dn1", "h1"⟩, ⟨2, "b", "u2", "dn2", "h2"⟩] :
        List MigrationRecord) ∧
      ∃ t₁ t₂, (migrate ⟨false, true, Force.off⟩ (fun _ => true)
          [⟨1, "a", "u1", "dn1", "h1"⟩]
          [⟨1, "a", "u1", "dn1", "h1"⟩, ⟨2, "b", "u2", "dn2", "h2"⟩]).tr =
        t₁ ++ [Action.beginTx, Action.execScript "dn2", Action.deleteRec 2,
          Action.commitTx] ++ t₂) :=
  ⟨by decide, c9_rollback_uses_recorded_down.2 ⟨false, true, Force.off⟩ (fun _ => true)
    [⟨1, "a", "u1", "dn1", "h1"⟩]
    [⟨1, "a", "u1", "dn1", "h1"⟩, ⟨2, "b", "u2", "dn2", "h2"⟩]
    ⟨2, "b", "u2", "dn2", "h2"⟩ (by decide)⟩

theorem runRollback_view_sorted (cfg : Config) (ok : String → Bool)
    (defs : List MigrationDef) (records : List MigrationRecord) (lastDef : MigrationDef)
    (hrec : records.Pairwise (fun a b => a.id < b.id))
    (herr : (runRollback cfg ok defs records lastDef).err = none) :
    (runRollback cfg ok defs records lastDef).view.Pairwise (fun a b => a.id < b.id) := by
  rw [runRollback_struct cfg ok defs records lastDef hrec herr]
  exact List.Pairwise.sublist (List.filter_sublist records) hrec

theorem runRollback_db_sorted (cfg : Config) (ok : String → Bool)
    (defs : List MigrationDef) (records : List MigrationRecord) (lastDef : MigrationDef)
    (hrec : records.Pairwise (fun a b => a.id < b.id))
    (herr : (runRollback cfg ok defs records lastDef).err = none) :
    (runRollback cfg ok defs records lastDef).db.Pairwise (fun a b => a.id < b.id) := by
  rw [runRollback_struct cfg ok defs records lastDef hrec herr]
  apply List.pairwise_map.mpr
  apply (List.Pairwise.sublist (List.filter_sublist records) hrec).imp
  intro a b hab
  rw [auditWrite_id, auditWrite_id]
  exact hab

theorem runRollback_db_le (cfg : Config) (ok : String → Bool)
    (defs : List MigrationDef) (records : List MigrationRecord) (lastDef : MigrationDef)
    (hrec : records.Pairwise (fun a b => a.id < b.id))
    (herr : (runRollback cfg ok defs records lastDef).err = none) :
    ∀ x ∈ (runRollback cfg ok defs records lastDef).db,
      x.id ≤ lastIdOfView (runRollback cfg ok defs records lastDef).view := by
  rw [runRollback_struct cfg ok defs records lastDef hrec herr]
  intro x hx
  obtain ⟨y, hy, rfl⟩ := List.mem_map.mp hx
  rw [auditWrite_id]
  exact le_lastIdOfView
    ((List.Pairwise.sublist (List.filter_sublist records) hrec).imp (fun hab => le_of_lt hab)) y hy

/-! ## Claim C7 -/
/-- C7: with `validateDown` enabled, an applied definition's transaction
executes up, then down, then up again before the ledger INSERT and the
commit; if the down script fails, the transaction is rolled back, the
table is unchanged and the run aborts with that failure; consequently a
successful run never records a definition whose down script fails. -/
theorem c7_validate_down_roundtrip :
    (∀ (ok : String → Bool) (lastId : Nat) (d : MigrationDef)
       (rest : List MigrationDef) (db : List MigrationRecord),
       ok d.up = true → ok d.down = false → lastId < d.id →
       applyLoop ok true lastId (d :: rest) db =
         ⟨db, [], [Action.beginTx, Action.execScript d.up, Action.execScript d.down,
           Action.rollbackTx], some (RunError.scriptFailed d.down)⟩) ∧
    (∀ (ok : String → Bool) (lastId : Nat) (d : MigrationDef)
       (rest : List MigrationDef) (db : List MigrationRecord),
       ok d.up = true → ok d.down = true → lastId < d.id →
       db.any (fun x => x.id == d.id) = false →
       ∃ tl, (applyLoop ok true lastId (d :: rest) db).tr =
         [Action.beginTx, Action.execScript d.up, Action.execScript d.down,
          Action.execScript d.up, Action.insertRec (toRecord d),
          Action.commitTx] ++ tl) ∧
    (∀ (cfg : Config) (ok : String → Bool) (defs : List MigrationDef)
       (records : List MigrationRecord),
       cfg.validateDown = true →
       (migrate cfg ok defs records).err = none →
       ∀ d ∈ (migrate cfg ok defs records).applied, ok d.down = true) := by
  refine ⟨?_, ?_, ?_⟩
  · intro ok lastId d rest db hup hdn helig
    have hvd : (true && !(ok d.down)) = true := by simp [hdn]
    simp [applyLoop, helig, hup, hvd]
  · intro ok lastId d rest db hup hdn helig hconf
    have hvd : (true && !(ok d.down)) = false := by simp [hdn]
    simp only [applyLoop, helig, hup, hvd, hconf, if_true, if_false, Bool.false_eq_true]
    refine ⟨(applyLoop ok true lastId rest (db ++ [toRecord d])).tr, ?_⟩
    simp
  · intro cfg ok defs records hvd hsucc d hd
    cases hlast : defs.getLast? with
    | none =>
      unfold migrate at hsucc
      rw [hlast] at hsucc
      simp at hsucc
    | some lastDef =>
      rw [migrate_eq_core _ _ _ _ _ hlast] at hsucc hd
      obtain ⟨hrb, hap⟩ := migrateCore_err_none _ _ _ _ _ hsucc
      obtain ⟨_, happ, _⟩ := migrateCore_db_of_rb_ok _ _ _ _ _ hrb
      rw [happ] at hd
      rw [runApply, hvd] at hd
      rw [runApply, hvd] at hap
      exact applyLoop_applied_down_ok ok
        (lastIdOfView (runRollback cfg ok defs records lastDef).view) defs
        (runRollback cfg ok defs records lastDef).db hap d hd

/-- Witness for C7: a concrete migration whose down script fails under
validation is not recorded and aborts the run. -/
theorem c7_witness :
    ((fun s => !(s == "dbad")) "u" = true) ∧
    ((fun s => !(s == "dbad")) "dbad" = false) ∧ (0 < 1) ∧
    (applyLoop (fun s => !(s == "dbad")) true 0 [⟨1, "a", "u", "dbad", "h"⟩] [] =
      ⟨[], [], [Action.beginTx, Action.execScript "u", Action.execScript "dbad",
        Action.rollbackTx], some (RunError.scriptFailed "dbad")⟩) :=
  ⟨by decide, by decide, by decide,
    c7_validate_down_roundtrip.1 (fun s => !(s == "dbad")) 0
      ⟨1, "a", "u", "dbad", "h"⟩ [] [] (by decide) (by decide) (by decide)⟩

/-! ## Claim C10 -/
/-- C10 counterexample: the primary-key-violation branch of the apply
phase is reachable. Two definitions sharing id 1 (as the loader produces
from the filenames `1.a.sql` and `01.b.sql`) over an empty ledger: both
are eligible (id over the post-rollback maximum 0), the first INSERT
succeeds and the second hits the just-inserted id, aborting with the
insert-conflict error. -/
theorem c10_counterexample :
    (migrate ⟨false, true, Force.off⟩ (fun _ => true)
      [⟨1, "a", "u1", "dn1", "h1"⟩, ⟨1, "b", "u2", "dn2", "h2"⟩] []).err =
      some (RunError.insertConflict 1) := by
  decide

/-- C10 (amended): provided no two definitions share an id (which the
loader does not enforce), every applied definition's id is strictly
greater than every id remaining in the table after the rollback phase,
and the primary-key-violation branch is unreachable: the run never ends
with an insert-conflict error. -/
theorem c10_amended_apply_fresh (cfg : Config) (ok : String → Bool)
    (defs : List MigrationDef) (records : List MigrationRecord) (lastDef : MigrationDef)
    (hlast : defs.getLast? = some lastDef)
    (hrec : records.Pairwise (fun a b => a.id < b.id))
    (hdefs : defs.Pairwise (fun a b => a.id < b.id)) :
    (∀ d ∈ (migrate cfg ok defs records).applied,
       ∀ x ∈ (runRollback cfg ok defs records lastDef).db, x.id < d.id) ∧
    (∀ i, (migrate cfg ok defs records).err ≠ some (RunError.insertConflict i)) := by
  rw [migrate_eq_core _ _ _ _ _ hlast]
  cases herr : (runRollback cfg ok defs records lastDef).err with
  | some e =>
    obtain ⟨happ, herr'⟩ := migrateCore_applied_of_rb_err _ _ _ _ _ e herr
    constructor
    · rw [happ]
      intro d hd
      simp at hd
    · intro i
      rw [herr']
      have hshape : (runRollback cfg ok defs records lastDef).err = none ∨
          ∃ s, (runRollback cfg ok defs records lastDef).err =
            some (RunError.scriptFailed s) := by
        simpa [runRollback] using rollbackLoop_err_shape ok
          (rollbackCond cfg defs (audit defs records).fm lastDef.id)
          (sortDescById records) (audit defs records).db records
      rcases hshape with hsh | ⟨s, hsh⟩
      · rw [herr] at hsh; simp at hsh
      · rw [herr] at hsh
        have : e = RunError.scriptFailed s := Option.some_inj.mp hsh
        rw [this]
        simp
  | none =>
    obtain ⟨_, happ, herrq⟩ := migrateCore_db_of_rb_ok _ _ _ _ _ herr
    have hle := runRollback_db_le cfg ok defs records lastDef hrec herr
    constructor
    · intro d hd x hx
      rw [happ] at hd
      have helig := (applyLoop_applied_elig ok cfg.validateDown
        (lastIdOfView (runRollback cfg ok defs records lastDef).view) defs
        (runRollback cfg ok defs records lastDef).db d
        (by simpa [runApply] using hd)).1
      exact lt_of_le_of_lt (hle x hx) helig
    · intro i
      rw [herrq]
      have hb : ∀ x ∈ (runRollback cfg ok defs records lastDef).db, ∀ d ∈ defs,
          lastIdOfView (runRollback cfg ok defs records lastDef).view < d.id →
          x.id < d.id :=
        fun x hx d _ hlt => lt_of_le_of_lt (hle x hx) hlt
      have := applyLoop_no_conflict ok cfg.validateDown
        (lastIdOfView (runRollback cfg ok defs records lastDef).view) defs
        (runRollback cfg ok defs records lastDef).db hb hdefs i
      simpa [runApply] using this

/-- Witness for the amended C10 at a concrete run. -/
theorem c10_witness :
    (([⟨1, "a", "u1", "dn1", "h1"⟩, ⟨2, "b", "u2", "dn2", "h2"⟩] :
        List MigrationDef).getLast? = some ⟨2, "b", "u2", "dn2", "h2"⟩) ∧
    (∀ d ∈ (migrate ⟨false, true, Force.off⟩ (fun _ => true)
        [⟨1, "a", "u1", "dn1", "h1"⟩, ⟨2, "b", "u2", "dn2", "h2"⟩]
        [⟨1, "a", "u1", "dn1", "h1"⟩]).applied,
       ∀ x ∈ (runRollback ⟨false, true, Force.off⟩ (fun _ => true)
        [⟨1, "a", "u1", "dn1", "h1"⟩, ⟨2, "b", "u2", "dn2", "h2"⟩]
        [⟨1, "a", "u1", "dn1", "h1"⟩] ⟨2, "b", "u2", "dn2", "h2"⟩).db, x.id < d.id) ∧
    (∀ i, (migrate ⟨false, true, Force.off⟩ (fun _ => true)
        [⟨1, "a", "u1", "dn1", "h1"⟩, ⟨2, "b", "u2", "dn2", "h2"⟩]
        [⟨1, "a", "u1", "dn1", "h1"⟩]).err ≠ some (RunError.insertConflict i)) := by
  refine ⟨by decide, ?_⟩
  exact c10_amended_apply_fresh ⟨false, true, Force.off⟩ (fun _ => true)
    [⟨1, "a", "u1", "dn1", "h1"⟩, ⟨2, "b", "u2", "dn2", "h2"⟩]
    [⟨1, "a", "u1", "dn1", "h1"⟩] ⟨2, "b", "u2", "dn2", "h2"⟩
    (by decide) (by decide) (by decide)

theorem auditWrite_keeps (defs : List MigrationDef) (rs : List MigrationRecord)
    (x : MigrationRecord) :
    (auditWrite defs rs x).id = x.id ∧ (auditWrite defs rs x).name = x.name ∧
    (auditWrite defs rs x).up = x.up ∧ (auditWrite defs rs x).down = x.down := by
  cases h : rs.find? (fun s => s.id == x.id) with
  | none => rw [auditWrite_eq_none defs rs x h]; exact ⟨rfl, rfl, rfl, rfl⟩
  | some r =>
    rw [auditWrite_eq_some defs rs x r h]
    cases hf : defs.find? (fun d => d.id == r.id) with
    | none => rw [hashFix_none defs r x hf]; exact ⟨rfl, rfl, rfl, rfl⟩
    | some d =>
      rw [hashFix_some defs r x d hf]
      by_cases hnil : r.hash = "nil"
      · simp [hnil]
      · simp [hnil]

theorem le_getLast_def :
    ∀ {defs : List MigrationDef}, defs.Pairwise (fun a b => a.id ≤ b.id) →
    ∀ {L : MigrationDef}, defs.getLast? = some L → ∀ d ∈ defs, d.id ≤ L.id := by
  intro defs
  induction defs with
  | nil => intro _ L hL; simp at hL
  | cons a t ih =>
    intro hp L hL d hd
    cases t with
    | nil =>
      simp only [List.getLast?_singleton, Option.some_inj] at hL
      rcases List.mem_cons.mp hd with rfl | hd'
      · rw [← hL]
      · simp at hd'
    | cons c t' =>
      rw [List.getLast?_cons_cons] at hL
      rcases List.mem_cons.mp hd with rfl | hd'
      · exact le_trans (le_refl _)
          (List.rel_of_pairwise_cons hp (mem_of_getLast?' hL))
      · exact ih hp.of_cons hL d hd'

/-! ## Claim C1 -/
/-- C1: after any successful run on a well-formed ledger listing
(strictly ascending ids, as the primary key and `ORDER BY id ASC`
guarantee) with the loader's ascending definitions: the final table has
strictly ascending ids with no duplicates; the rolled-back records are
exactly a contiguous head of the reversed pre-run listing, that is, a
contiguous descending-id suffix of the pre-run ledger; and every record
the scan kept is still present, with its id, name, up and down intact. -/
theorem c1_ordering_invariant (cfg : Config) (ok : String → Bool)
    (defs : List MigrationDef) (records : List MigrationRecord)
    (hrec : records.Pairwise (fun a b => a.id < b.id))
    (hdefs : defs.Pairwise (fun a b => a.id ≤ b.id))
    (hsucc : (migrate cfg ok defs records).err = none) :
    (migrate cfg ok defs records).db.Pairwise (fun a b => a.id < b.id) ∧
    (∃ k, (migrate cfg ok defs records).rolledBack = records.reverse.take k) ∧
    (∀ r ∈ records, r ∉ (migrate cfg ok defs records).rolledBack →
      ∃ r' ∈ (migrate cfg ok defs records).db,
        r'.id = r.id ∧ r'.name = r.name ∧ r'.up = r.up ∧ r'.down = r.down) := by
  cases hlast : defs.getLast? with
  | none =>
    unfold migrate at hsucc
    rw [hlast] at hsucc
    simp at hsucc
  | some lastDef =>
    rw [migrate_eq_core _ _ _ _ _ hlast] at hsucc ⊢
    obtain ⟨hrb, hapE⟩ := migrateCore_err_none _ _ _ _ _ hsucc
    obtain ⟨hdbEq, happEq, _⟩ := migrateCore_db_of_rb_ok _ _ _ _ _ hrb
    have hrbEq := migrateCore_rolledBack cfg ok defs records lastDef
    have hnd : (records.map (fun r => r.id)).Nodup :=
      List.pairwise_map.mpr (hrec.imp (fun hab => Nat.ne_of_lt hab))
    refine ⟨?_, ?_, ?_⟩
    · rw [hdbEq]
      simp only [runApply]
      apply applyLoop_sorted
      · simpa [runApply] using hapE
      · exact runRollback_db_sorted cfg ok defs records lastDef hrec hrb
      · intro x hx d _ hlt
        exact le_of_lt (lt_of_le_of_lt
          (runRollback_db_le cfg ok defs records lastDef hrec hrb x hx) hlt)
      · exact hdefs
    · rw [hrbEq, runRollback_struct cfg ok defs records lastDef hrec hrb]
      exact exists_takeWhile_eq_take _ _
    · intro r hr hnotrb
      rw [hrbEq, runRollback_struct cfg ok defs records lastDef hrec hrb] at hnotrb
      have hkeep : keepFilter (records.reverse.takeWhile
          (rollbackCond cfg defs (audit defs records).fm lastDef.id)) r = true := by
        apply List.all_eq_true.mpr
        intro s hs
        have hsmem : s ∈ records :=
          List.mem_reverse.mp (mem_of_mem_takeWhile hs).1
        by_cases hid : r.id = s.id
        · exact absurd (eq_of_mem_of_id_eq hnd hr hsmem hid ▸ hs) hnotrb
        · simpa using hid
      refine ⟨auditWrite defs records r, ?_, ?_⟩
      · rw [hdbEq]
        simp only [runApply]
        rw [applyLoop_db_eq]
        apply List.mem_append_left
        rw [runRollback_struct cfg ok defs records lastDef hrec hrb]
        exact List.mem_map_of_mem _ (List.mem_filter.mpr ⟨hr, hkeep⟩)
      · obtain ⟨h1, h2, h3, h4⟩ := auditWrite_keeps defs records r
        exact ⟨h1, h2, h3, h4⟩

/-- Witness for C1 at a concrete successful run (one ledger row kept, a
deleted-file row rolled back, one new definition applied). -/
theorem c1_witness :
    (([⟨1, "a", "u1", "dn1", "h1"⟩, ⟨2, "b", "u2", "dn2", "h2"⟩,
        ⟨5, "c", "u5", "dn5", "h5"⟩] : List MigrationRecord).Pairwise
          (fun a b => a.id < b.id)) ∧
    (([⟨1, "a", "u1", "dn1", "h1"⟩, ⟨2, "b", "u2", "dn2", "h2"⟩,
        ⟨3, "d", "u3", "dn3", "h3"⟩] : List MigrationDef).Pairwise
          (fun a b => a.id ≤ b.id)) ∧
    ((migrate ⟨false, true, Force.off⟩ (fun _ => true)
        [⟨1, "a", "u1", "dn1", "h1"⟩, ⟨2, "b", "u2", "dn2", "h2"⟩,
          ⟨3, "d", "u3", "dn3", "h3"⟩]
        [⟨1, "a", "u1", "dn1", "h1"⟩, ⟨2, "b", "u2", "dn2", "h2"⟩,
          ⟨5, "c", "u5", "dn5", "h5"⟩]).err = none) ∧
    ((migrate ⟨false, true, Force.off⟩ (fun _ => true)
        [⟨1, "a", "u1", "dn1", "h1"⟩, ⟨2, "b", "u2", "dn2", "h2"⟩,
          ⟨3, "d", "u3", "dn3", "h3"⟩]
        [⟨1, "a", "u1", "dn1", "h1"⟩, ⟨2, "b", "u2", "dn2", "h2"⟩,
          ⟨5, "c", "u5", "dn5", "h5"⟩]).db.Pairwise (fun a b => a.id < b.id) ∧
      (∃ k, (migrate ⟨false, true, Force.off⟩ (fun _ => true)
        [⟨1, "a", "u1", "dn1", "h1"⟩, ⟨2, "b", "u2", "dn2", "h2"⟩,
          ⟨3, "d", "u3", "dn3", "h3"⟩]
        [⟨1, "a", "u1", "dn1", "h1"⟩, ⟨2, "b", "u2", "dn2", "h2"⟩,
          ⟨5, "c", "u5", "dn5", "h5"⟩]).rolledBack =
        ([⟨1, "a", "u1", "dn1", "h1"⟩, ⟨2, "b", "u2", "dn2", "h2"⟩,
          ⟨5, "c", "u5", "dn5", "h5"⟩] : List MigrationRecord).reverse.take k) ∧
      (∀ r ∈ ([⟨1, "a", "u1", "dn1", "h1"⟩, ⟨2, "b", "u2", "dn2", "h2"⟩,
          ⟨5, "c", "u5", "dn5", "h5"⟩] : List MigrationRecord),
        r ∉ (migrate ⟨false, true, Force.off⟩ (fun _ => true)
          [⟨1, "a", "u1", "dn1", "h1"⟩, ⟨2, "b", "u2", "dn2", "h2"⟩,
            ⟨3, "d", "u3", "dn3", "h3"⟩]
          [⟨1, "a", "u1", "dn1", "h1"⟩, ⟨2, "b", "u2", "dn2", "h2"⟩,
            ⟨5, "c", "u5", "dn5", "h5"⟩]).rolledBack →
        ∃ r' ∈ (migrate ⟨false, true, Force.off⟩ (fun _ => true)
          [⟨1, "a", "u1", "dn1", "h1"⟩, ⟨2, "b", "u2", "dn2", "h2"⟩,
            ⟨3, "d", "u3", "dn3", "h3"⟩]
          [⟨1, "a", "u1", "dn1", "h1"⟩, ⟨2, "b", "u2", "dn2", "h2"⟩,
            ⟨5, "c", "u5", "dn5", "h5"⟩]).db,
          r'.id = r.id ∧ r'.name = r.name ∧ r'.up = r.up ∧ r'.down = r.down)) :=
  ⟨by decide, by decide, by decide,
    c1_ordering_invariant ⟨false, true, Force.off⟩ (fun _ => true)
      [⟨1, "a", "u1", "dn1", "h1"⟩, ⟨2, "b", "u2", "dn2", "h2"⟩,
        ⟨3, "d", "u3", "dn3", "h3"⟩]
      [⟨1, "a", "u1", "dn1", "h1"⟩, ⟨2, "b", "u2", "dn2", "h2"⟩,
        ⟨5, "c", "u5", "dn5", "h5"⟩]
      (by decide) (by decide) (by decide)⟩

/-! ## Claim C6 -/
/-- C6: with `force = 'last'`, a record is rolled back under condition
(c) — that is, it is among the rolled-back records and the forced
condition holds of it — exactly when its id is the maximum id present in
the definitions and it is the maximum id among the records still present
when it is examined (equivalently: every strictly-higher-id record was
itself rolled back). The second conjunct is the spec's Scenario D:
re-running an up-to-date state with `force='last'` rolls back and
reapplies only the newest migration, leaving the other row untouched. -/
theorem c6_force_last (cfg : Config) (ok : String → Bool)
    (defs : List MigrationDef) (records : List MigrationRecord) (lastDef : MigrationDef)
    (hlast : defs.getLast? = some lastDef)
    (hrec : records.Pairwise (fun a b => a.id < b.id))
    (hdefs : defs.Pairwise (fun a b => a.id ≤ b.id))
    (hforce : cfg.force = Force.last)
    (hsucc : (migrate cfg ok defs records).err = none) :
    (∀ r ∈ records,
      ((r ∈ (migrate cfg ok defs records).rolledBack ∧
        condForced cfg.force lastDef.id r = true) ↔
       ((∀ d ∈ defs, d.id ≤ r.id) ∧ (∃ d ∈ defs, d.id = r.id) ∧
        ∀ s ∈ records, r.id < s.id → s ∈ (migrate cfg ok defs records).rolledBack))) ∧
    ((migrate ⟨false, true, Force.last⟩ (fun _ => true)
      [⟨1, "na", "ua", "da", "ha"⟩, ⟨2, "nb", "ub", "db2", "hb"⟩]
      [⟨1, "na", "ua", "da", "ha"⟩, ⟨2, "nb", "ub", "db2", "hb"⟩]).db =
        [⟨1, "na", "ua", "da", "ha"⟩, ⟨2, "nb", "ub", "db2", "hb"⟩] ∧
     (migrate ⟨false, true, Force.last⟩ (fun _ => true)
      [⟨1, "na", "ua", "da", "ha"⟩, ⟨2, "nb", "ub", "db2", "hb"⟩]
      [⟨1, "na", "ua", "da", "ha"⟩, ⟨2, "nb", "ub", "db2", "hb"⟩]).rolledBack =
        [⟨2, "nb", "ub", "db2", "hb"⟩] ∧
     (migrate ⟨false, true, Force.last⟩ (fun _ => true)
      [⟨1, "na", "ua", "da", "ha"⟩, ⟨2, "nb", "ub", "db2", "hb"⟩]
      [⟨1, "na", "ua", "da", "ha"⟩, ⟨2, "nb", "ub", "db2", "hb"⟩]).applied =
        [⟨2, "nb", "ub", "db2", "hb"⟩] ∧
     (migrate ⟨false, true, Force.last⟩ (fun _ => true)
      [⟨1, "na", "ua", "da", "ha"⟩, ⟨2, "nb", "ub", "db2", "hb"⟩]
      [⟨1, "na", "ua", "da", "ha"⟩, ⟨2, "nb", "ub", "db2", "hb"⟩]).err = none) := by
  refine ⟨?_, by decide, by decide, by decide, by decide⟩
  intro r hr
  rw [migrate_eq_core _ _ _ _ _ hlast] at hsucc ⊢
  obtain ⟨hrb, _⟩ := migrateCore_err_none _ _ _ _ _ hsucc
  have hrbEq := migrateCore_rolledBack cfg ok defs records lastDef
  rw [hrbEq, runRollback_struct cfg ok defs records lastDef hrec hrb]
  have hdesc : records.reverse.Pairwise (fun a b => b.id < a.id) :=
    List.pairwise_reverse.mpr hrec
  have hLmem : lastDef ∈ defs := mem_of_getLast?' hlast
  constructor
  · intro ⟨hmem, hcf⟩
    have hid : r.id = lastDef.id := by
      have := (Bool.and_eq_true _ _).mp hcf
      simpa using this.2
    refine ⟨?_, ⟨lastDef, hLmem, hid.symm⟩, ?_⟩
    · intro d hd
      rw [hid]
      exact le_getLast_def hdefs hlast d hd
    · intro s hs hlt
      obtain ⟨_, _, hthird⟩ := (mem_takeWhile_iff_desc hdesc).mp hmem
      apply (mem_takeWhile_iff_desc hdesc).mpr
      refine ⟨List.mem_reverse.mpr hs, hthird s (List.mem_reverse.mpr hs) hlt, ?_⟩
      intro t ht htlt
      exact hthird t ht (lt_trans hlt htlt)
  · intro ⟨hmax, ⟨d₀, hd₀, hid₀⟩, hhigher⟩
    have hle1 : lastDef.id ≤ r.id := hmax lastDef hLmem
    have hle2 : r.id ≤ lastDef.id := hid₀ ▸ le_getLast_def hdefs hlast d₀ hd₀
    have hid : r.id = lastDef.id := le_antisymm hle2 hle1
    have hcf : condForced cfg.force lastDef.id r = true := by
      unfold condForced
      rw [hforce, hid]
      simp
    refine ⟨?_, hcf⟩
    apply (mem_takeWhile_iff_desc hdesc).mpr
    refine ⟨List.mem_reverse.mpr hr, ?_, ?_⟩
    · unfold rollbackCond
      rw [hcf]
      simp
    · intro s hs hlt
      have hsrec : s ∈ records := List.mem_reverse.mp hs
      exact (mem_of_mem_takeWhile (hhigher s hsrec hlt)).2

/-- Witness for C6 at the Scenario D run, checking the characterization
at the newest record. -/
theorem c6_witness :
    ((([⟨1, "na", "ua", "da", "ha"⟩, ⟨2, "nb", "ub", "db2", "hb"⟩] :
        List MigrationDef).getLast? = some ⟨2, "nb", "ub", "db2", "hb"⟩) ∧
     (([⟨1, "na", "ua", "da", "ha"⟩, ⟨2, "nb", "ub", "db2", "hb"⟩] :
        List MigrationRecord).Pairwise (fun a b => a.id < b.id)) ∧
     ((⟨false, true, Force.last⟩ : Config).force = Force.last) ∧
     ((migrate ⟨false, true, Force.last⟩ (fun _ => true)
        [⟨1, "na", "ua", "da", "ha"⟩, ⟨2, "nb", "ub", "db2", "hb"⟩]
        [⟨1, "na", "ua", "da", "ha"⟩, ⟨2, "nb", "ub", "db2", "hb"⟩]).err = none)) ∧
    (∀ r ∈ ([⟨1, "na", "ua", "da", "ha"⟩, ⟨2, "nb", "ub", "db2", "hb"⟩] :
        List MigrationRecord),
      ((r ∈ (migrate ⟨false, true, Force.last⟩ (fun _ => true)
          [⟨1, "na", "ua", "da", "ha"⟩, ⟨2, "nb", "ub", "db2", "hb"⟩]
          [⟨1, "na", "ua", "da", "ha"⟩, ⟨2, "nb", "ub", "db2", "hb"⟩]).rolledBack ∧
        condForced Force.last 2 r = true) ↔
       ((∀ d ∈ ([⟨1, "na", "ua", "da", "ha"⟩, ⟨2, "nb", "ub", "db2", "hb"⟩] :
            List MigrationDef), d.id ≤ r.id) ∧
        (∃ d ∈ ([⟨1, "na", "ua", "da", "ha"⟩, ⟨2, "nb", "ub", "db2", "hb"⟩] :
            List MigrationDef), d.id = r.id) ∧
        ∀ s ∈ ([⟨1, "na", "ua", "da", "ha"⟩, ⟨2, "nb", "ub", "db2", "hb"⟩] :
            List MigrationRecord), r.id < s.id →
          s ∈ (migrate ⟨false, true, Force.last⟩ (fun _ => true)
            [⟨1, "na", "ua", "da", "ha"⟩, ⟨2, "nb", "ub", "db2", "hb"⟩]
            [⟨1, "na", "ua", "da", "ha"⟩, ⟨2, "nb", "ub", "db2", "hb"⟩]).rolledBack))) :=
  ⟨⟨by decide, by decide, rfl, by decide⟩,
    (c6_force_last ⟨false, true, Force.last⟩ (fun _ => true)
      [⟨1, "na", "ua", "da", "ha"⟩, ⟨2, "nb", "ub", "db2", "hb"⟩]
      [⟨1, "na", "ua", "da", "ha"⟩, ⟨2, "nb", "ub", "db2", "hb"⟩]
      ⟨2, "nb", "ub", "db2", "hb"⟩ (by decide) (by decide) (by decide) rfl
      (by decide)).1⟩

/-! ## Claim C8 support -/
theorem condDeleted_congr (defs : List MigrationDef) {x y : MigrationRecord}
    (h : x.id = y.id) : condDeleted defs x = condDeleted defs y := by
  unfold condDeleted
  rw [h]

theorem isMismatch_eval (defs : List MigrationDef) (x : MigrationRecord)
    (d : MigrationDef) (hfd : defs.find? (fun e => e.id == x.id) = some d) :
    isMismatch defs x = ((x.hash != "nil") && (d.hash != x.hash)) := by
  unfold isMismatch
  rw [hfd]

theorem isMismatch_none (defs : List MigrationDef) (x : MigrationRecord)
    (hfd : defs.find? (fun e => e.id == x.id) = none) :
    isMismatch defs x = false := by
  unfold isMismatch
  rw [hfd]

/-- A record missing from the post-rollback view was itself rolled back. -/
theorem mem_rbl_of_not_view (cond : MigrationRecord → Bool)
    {records : List MigrationRecord}
    (hrec : records.Pairwise (fun a b => a.id < b.id))
    {s : MigrationRecord} (hs : s ∈ records)
    (hk : keepFilter (records.reverse.takeWhile cond) s = false) :
    s ∈ records.reverse.takeWhile cond := by
  have hnd : (records.map (fun r => r.id)).Nodup :=
    List.pairwise_map.mpr (hrec.imp (fun hab => Nat.ne_of_lt hab))
  obtain ⟨t, ht, hts⟩ := List.all_eq_false.mp hk
  have htid : s.id = t.id := by simpa using hts
  have htrec : t ∈ records := List.mem_reverse.mp (mem_of_mem_takeWhile ht).1
  rw [eq_of_mem_of_id_eq hnd hs htrec htid]
  exact ht

theorem not_mem_rbl_of_view (cond : MigrationRecord → Bool)
    {records : List MigrationRecord} {y : MigrationRecord}
    (hk : keepFilter (records.reverse.takeWhile cond) y = true) :
    y ∉ records.reverse.takeWhile cond := by
  intro hmem
  have := List.all_eq_true.mp hk y hmem
  simp at this

/-- The last record of the post-rollback view fails the rollback
condition: it is the record at which the descending scan stopped. -/
theorem cond_getLast_view_false (cond : MigrationRecord → Bool)
    {records : List MigrationRecord}
    (hrec : records.Pairwise (fun a b => a.id < b.id))
    {y : MigrationRecord}
    (hy : (records.filter (keepFilter (records.reverse.takeWhile cond))).getLast? =
      some y) :
    cond y = false := by
  have hdesc : records.reverse.Pairwise (fun a b => b.id < a.id) :=
    List.pairwise_reverse.mpr hrec
  have hymem : y ∈ records.filter (keepFilter (records.reverse.takeWhile cond)) :=
    mem_of_getLast?' hy
  obtain ⟨hyrec, hkeep⟩ := List.mem_filter.mp hymem
  have hynot : y ∉ records.reverse.takeWhile cond := not_mem_rbl_of_view cond hkeep
  have hVsorted : (records.filter
      (keepFilter (records.reverse.takeWhile cond))).Pairwise
        (fun a b => a.id ≤ b.id) :=
    (List.Pairwise.sublist (List.filter_sublist records) hrec).imp
      (fun h => le_of_lt h)
  have hyLast : lastIdOfView (records.filter
      (keepFilter (records.reverse.takeWhile cond))) = y.id := by
    unfold lastIdOfView
    rw [hy]
  have hhigher : ∀ s ∈ records.reverse, y.id < s.id → cond s = true := by
    intro s hs hlt
    have hsrec : s ∈ records := List.mem_reverse.mp hs
    have hsnot : keepFilter (records.reverse.takeWhile cond) s = false := by
      cases hk : keepFilter (records.reverse.takeWhile cond) s with
      | false => rfl
      | true =>
        exfalso
        have hsV : s ∈ records.filter (keepFilter (records.reverse.takeWhile cond)) :=
          List.mem_filter.mpr ⟨hsrec, hk⟩
        have := le_lastIdOfView hVsorted s hsV
        rw [hyLast] at this
        exact absurd hlt (Nat.not_lt.mpr this)
    exact (mem_of_mem_takeWhile (mem_rbl_of_not_view cond hrec hsrec hsnot)).2
  cases hcv : cond y with
  | false => rfl
  | true =>
    exact absurd ((mem_takeWhile_iff_desc hdesc).mpr
      ⟨List.mem_reverse.mpr hyrec, hcv, hhigher⟩) hynot

/-- With `checkHash` enabled, every mismatched record is rolled back. -/
theorem mismatch_rolled (cfg : Config) (defs : List MigrationDef)
    (lastDef : MigrationDef) {records : List MigrationRecord}
    (hrec : records.Pairwise (fun a b => a.id < b.id))
    (hch : cfg.checkHash = true)
    {y : MigrationRecord} (hy : y ∈ records) (hmy : isMismatch defs y = true) :
    y ∈ records.reverse.takeWhile
      (rollbackCond cfg defs (audit defs records).fm lastDef.id) := by
  have hdesc : records.reverse.Pairwise (fun a b => b.id < a.id) :=
    List.pairwise_reverse.mpr hrec
  cases hfm : (audit defs records).fm with
  | none =>
    have := (audit_fm_none_iff defs records).mp hfm y hy
    rw [this] at hmy
    simp at hmy
  | some f =>
    have hfle : f ≤ y.id := audit_fm_min defs records f hfm y hy hmy
    have hcondb : ∀ s : MigrationRecord, f ≤ s.id →
        rollbackCond cfg defs (some f) lastDef.id s = true := by
      intro s hfs
      unfold rollbackCond condMismatch
      rw [hch]
      simp [hfs]
    exact (mem_takeWhile_iff_desc hdesc).mpr
      ⟨List.mem_reverse.mpr hy, hcondb y hfle,
        fun s _ hlt => hcondb s (le_trans hfle (le_of_lt hlt))⟩

/-- A second reconciliation over a strictly sorted table with no
definition-hash mismatch (whenever `checkHash` is on), whose newest row
still has a source file, and whose last id dominates every definition
id, performs no rollback and no apply. -/
theorem migrate_second_run (cfg : Config) (ok : String → Bool)
    (defs : List MigrationDef) (lastDef : MigrationDef)
    (hlast : defs.getLast? = some lastDef)
    (hforce : cfg.force = Force.off)
    (db3 : List MigrationRecord)
    (hdb3 : db3.Pairwise (fun a b => a.id < b.id))
    (hmm : cfg.checkHash = true → ∀ x ∈ db3, isMismatch defs x = false)
    (htop : ∀ y, db3.getLast? = some y → condDeleted defs y = false)
    (hdle : ∀ d ∈ defs, d.id ≤ lastIdOfView db3)
    (hne0 : db3 = [] → ∀ d ∈ defs, ¬(0 : Nat) < d.id) :
    (migrate cfg ok defs db3).rolledBack = [] ∧
    (migrate cfg ok defs db3).applied = [] := by
  rw [migrate_eq_core _ _ _ _ _ hlast]
  have hcondM : ∀ y, db3.getLast? = some y →
      rollbackCond cfg defs (audit defs db3).fm lastDef.id y = false := by
    intro y hy
    unfold rollbackCond
    rw [htop y hy]
    have h2 : condMismatch cfg.checkHash (audit defs db3).fm y = false := by
      cases hch : cfg.checkHash with
      | false => unfold condMismatch; simp
      | true =>
        have hfm : (audit defs db3).fm = none :=
          (audit_fm_none_iff defs db3).mpr (hmm hch)
        unfold condMismatch
        rw [hfm]
        simp
    have h3 : condForced cfg.force lastDef.id y = false := by
      unfold condForced
      rw [hforce]
      simp
    rw [h2, h3]
    rfl
  cases hrev : db3.reverse with
  | nil =>
    have hdb3nil : db3 = [] := List.reverse_eq_nil_iff.mp hrev
    subst hdb3nil
    have hrr : runRollback cfg ok defs [] lastDef =
        ⟨(audit defs []).db, [], [], [], none⟩ := rfl
    constructor
    · rw [migrateCore_rolledBack, hrr]
    · obtain ⟨_, happ, _⟩ := migrateCore_db_of_rb_ok cfg ok defs [] lastDef (by rw [hrr])
      rw [happ]
      simp only [runApply]
      rw [hrr]
      have hL0 : lastIdOfView ([] : List MigrationRecord) = 0 := rfl
      rw [applyLoop_skip ok cfg.validateDown (lastIdOfView []) defs
        (audit defs []).db (by rw [hL0]; exact hne0 rfl)]
  | cons M rest₂ =>
    have hgl : db3.getLast? = some M := by
      rw [← List.head?_reverse, hrev]
      rfl
    have hsort2 : sortDescById db3 = db3.reverse := sortDescById_eq_reverse hdb3
    have htw : db3.reverse.takeWhile
        (rollbackCond cfg defs (audit defs db3).fm lastDef.id) = [] := by
      rw [hrev, List.takeWhile_cons, hcondM M hgl]
      simp
    have hok0 : ∀ r ∈ db3.reverse.takeWhile
        (rollbackCond cfg defs (audit defs db3).fm lastDef.id), ok r.down = true := by
      rw [htw]
      intro r hr
      simp at hr
    have hrr : runRollback cfg ok defs db3 lastDef =
        ⟨(audit defs db3).db.filter (keepFilter []),
         db3.filter (keepFilter []), [], rbTrace [], none⟩ := by
      unfold runRollback
      rw [hsort2, rollbackLoop_of_ok ok _ db3.reverse (audit defs db3).db db3 hok0, htw]
    constructor
    · rw [migrateCore_rolledBack, hrr]
    · obtain ⟨_, happ, _⟩ := migrateCore_db_of_rb_ok cfg ok defs db3 lastDef (by rw [hrr])
      rw [happ]
      simp only [runApply]
      rw [hrr]
      have hlid : lastIdOfView (db3.filter (keepFilter [])) = M.id := by
        rw [filter_keepFilter_nil]
        unfold lastIdOfView
        rw [hgl]
      rw [hlid]
      rw [applyLoop_skip ok cfg.validateDown M.id defs
        ((audit defs db3).db.filter (keepFilter []))
        (fun d hd => Nat.not_lt.mpr (by
          have := hdle d hd
          have hlid2 : lastIdOfView db3 = M.id := by
            unfold lastIdOfView
            rw [hgl]
          rw [hlid2] at this
          exact this))]

/-! ## Claim C8 -/
/-- C8 counterexample: with `force = 'last'`, two identical
back-to-back runs over an unchanged source directory are not
idempotent — the second run again rolls back (and reapplies) the
newest migration, so the claimed "zero rollbacks on the second run"
fails. -/
theorem c8_counterexample :
    ((migrate ⟨false, true, Force.last⟩ (fun _ => true)
      [⟨1, "na", "ua", "da", "ha"⟩, ⟨2, "nb", "ub", "db2", "hb"⟩]
      [⟨1, "na", "ua", "da", "ha"⟩, ⟨2, "nb", "ub", "db2", "hb"⟩]).err = none) ∧
    (migrate ⟨false, true, Force.last⟩ (fun _ => true)
      [⟨1, "na", "ua", "da", "ha"⟩, ⟨2, "nb", "ub", "db2", "hb"⟩]
      (migrate ⟨false, true, Force.last⟩ (fun _ => true)
        [⟨1, "na", "ua", "da", "ha"⟩, ⟨2, "nb", "ub", "db2", "hb"⟩]
        [⟨1, "na", "ua", "da", "ha"⟩, ⟨2, "nb", "ub", "db2", "hb"⟩]).db).rolledBack =
      [⟨2, "nb", "ub", "db2", "hb"⟩] :=
  ⟨by decide, by decide⟩

/-- C8 (amended): with `force = 'last'` excluded (`force = off`), a
second reconciliation over the table left by a successful first run,
with the same unchanged definitions, performs zero rollbacks and zero
applies. -/
theorem c8_amended_idempotent (cfg : Config) (ok : String → Bool)
    (defs : List MigrationDef) (records : List MigrationRecord)
    (hforce : cfg.force = Force.off)
    (hrec : records.Pairwise (fun a b => a.id < b.id))
    (hdefs : defs.Pairwise (fun a b => a.id < b.id))
    (h1 : (migrate cfg ok defs records).err = none) :
    (migrate cfg ok defs (migrate cfg ok defs records).db).rolledBack = [] ∧
    (migrate cfg ok defs (migrate cfg ok defs records).db).applied = [] := by
  cases hlast : defs.getLast? with
  | none =>
    unfold migrate at h1
    rw [hlast] at h1
    simp at h1
  | some lastDef =>
    have hdefs_le : defs.Pairwise (fun a b => a.id ≤ b.id) :=
      hdefs.imp (fun hab => le_of_lt hab)
    have hnd : (records.map (fun r => r.id)).Nodup :=
      List.pairwise_map.mpr (hrec.imp (fun hab => Nat.ne_of_lt hab))
    have hndd : (defs.map (fun d => d.id)).Nodup :=
      List.pairwise_map.mpr (hdefs.imp (fun hab => Nat.ne_of_lt hab))
    rw [migrate_eq_core cfg ok defs records lastDef hlast] at h1 ⊢
    obtain ⟨hrb, hapE⟩ := migrateCore_err_none _ _ _ _ _ h1
    obtain ⟨hdbEq, _, _⟩ := migrateCore_db_of_rb_ok _ _ _ _ _ hrb
    have hstruct := runRollback_struct cfg ok defs records lastDef hrec hrb
    have hdbS : (runRollback cfg ok defs records lastDef).db =
        (records.filter (keepFilter (records.reverse.takeWhile
          (rollbackCond cfg defs (audit defs records).fm lastDef.id)))).map
            (auditWrite defs records) := by
      rw [hstruct]
    have hviewS : (runRollback cfg ok defs records lastDef).view =
        records.filter (keepFilter (records.reverse.takeWhile
          (rollbackCond cfg defs (audit defs records).fm lastDef.id))) := by
      rw [hstruct]
    have happ1 : (runApply cfg ok defs records lastDef).applied =
        defs.filter (fun d => decide (lastIdOfView
          (runRollback cfg ok defs records lastDef).view < d.id)) := by
      simp only [runApply]
      exact applyLoop_applied_of_err_none ok cfg.validateDown _ defs _
        (by simpa [runApply] using hapE)
    have hdb3eq : (migrateCore cfg ok defs records lastDef).db =
        (runRollback cfg ok defs records lastDef).db ++
        ((runApply cfg ok defs records lastDef).applied).map toRecord := by
      rw [hdbEq]
      simp only [runApply]
      rw [applyLoop_db_eq]
    have hdb3sorted : (migrateCore cfg ok defs records lastDef).db.Pairwise
        (fun a b => a.id < b.id) := by
      rw [hdbEq]
      simp only [runApply]
      apply applyLoop_sorted
      · simpa [runApply] using hapE
      · exact runRollback_db_sorted cfg ok defs records lastDef hrec hrb
      · intro x hx d _ hlt
        exact le_of_lt (lt_of_le_of_lt
          (runRollback_db_le cfg ok defs records lastDef hrec hrb x hx) hlt)
      · exact hdefs_le
    have hmmall : cfg.checkHash = true →
        ∀ x ∈ (migrateCore cfg ok defs records lastDef).db,
          isMismatch defs x = false := by
      intro hch x hx
      rw [hdb3eq] at hx
      rcases List.mem_append.mp hx with hx' | hx'
      · rw [hdbS] at hx'
        obtain ⟨y, hyV, rfl⟩ := List.mem_map.mp hx'
        obtain ⟨hyrec, hkeep⟩ := List.mem_filter.mp hyV
        have hfr : records.find? (fun s => s.id == y.id) = some y :=
          find?_id_self hnd hyrec
        have hw : auditWrite defs records y = hashFix defs y y :=
          auditWrite_eq_some defs records y y hfr
        rw [hw]
        cases hfd : defs.find? (fun d => d.id == y.id) with
        | none =>
          rw [hashFix_none defs y y hfd]
          exact isMismatch_none defs y hfd
        | some d =>
          by_cases hnil : y.hash = "nil"
          · rw [hashFix_some defs y y d hfd, if_pos hnil]
            have hfd' : defs.find? (fun e => e.id ==
                ({ y with hash := d.hash } : MigrationRecord).id) = some d := hfd
            rw [isMismatch_eval defs _ d hfd']
            simp
          · rw [hashFix_some defs y y d hfd, if_neg hnil]
            by_cases hhash : d.hash = y.hash
            · rw [isMismatch_eval defs y d hfd]
              simp [hhash]
            · exfalso
              have hmy : isMismatch defs y = true := by
                rw [isMismatch_eval defs y d hfd]
                simp [hnil, hhash]
              exact not_mem_rbl_of_view _ hkeep
                (mismatch_rolled cfg defs lastDef hrec hch hyrec hmy)
      · obtain ⟨d', hd', rfl⟩ := List.mem_map.mp hx'
        have hd'defs : d' ∈ defs := by
          rw [happ1] at hd'
          exact (List.mem_filter.mp hd').1
        have hfd2 : defs.find? (fun e => e.id == (toRecord d').id) = some d' :=
          find?_id_self_def hndd hd'defs
        rw [isMismatch_eval defs _ d' hfd2]
        simp [toRecord]
    have htopall : ∀ y, (migrateCore cfg ok defs records lastDef).db.getLast? = some y →
        condDeleted defs y = false := by
      intro M hM
      rw [hdb3eq, List.getLast?_append] at hM
      cases hga : (((runApply cfg ok defs records lastDef).applied).map toRecord).getLast? with
      | some z =>
        rw [hga] at hM
        have hMz : z = M := by simpa using hM
        rw [List.getLast?_map] at hga
        cases hga2 : ((runApply cfg ok defs records lastDef).applied).getLast? with
        | none =>
          rw [hga2] at hga
          simp at hga
        | some d' =>
          rw [hga2] at hga
          have hzd : toRecord d' = z := by simpa using hga
          have hd'mem : d' ∈ (runApply cfg ok defs records lastDef).applied :=
            mem_of_getLast?' hga2
          have hd'defs : d' ∈ defs := by
            rw [happ1] at hd'mem
            exact (List.mem_filter.mp hd'mem).1
          have hany : defs.any (fun d => d.id == M.id) = true :=
            List.any_eq_true.mpr ⟨d', hd'defs, by rw [← hMz, ← hzd]; simp [toRecord]⟩
          unfold condDeleted
          rw [hany]
          rfl
      | none =>
        rw [hga] at hM
        have hM' : (runRollback cfg ok defs records lastDef).db.getLast? = some M := by
          simpa using hM
        rw [hdbS, List.getLast?_map] at hM'
        cases hgy : (records.filter (keepFilter (records.reverse.takeWhile
            (rollbackCond cfg defs (audit defs records).fm lastDef.id)))).getLast? with
        | none =>
          rw [hgy] at hM'
          simp at hM'
        | some y =>
          rw [hgy] at hM'
          have hMy : auditWrite defs records y = M := by simpa using hM'
          have hcy : rollbackCond cfg defs (audit defs records).fm lastDef.id y = false :=
            cond_getLast_view_false _ hrec hgy
          unfold rollbackCond at hcy
          have hcda : condDeleted defs y = false :=
            (Bool.or_eq_false_iff.mp (Bool.or_eq_false_iff.mp hcy).1).1
          have hid : M.id = y.id := by
            rw [← hMy, auditWrite_id]
          rw [condDeleted_congr defs hid]
          exact hcda
    have hdleall : ∀ d ∈ defs,
        d.id ≤ lastIdOfView (migrateCore cfg ok defs records lastDef).db := by
      intro d hd
      have hdbWeak : (migrateCore cfg ok defs records lastDef).db.Pairwise
          (fun a b => a.id ≤ b.id) := hdb3sorted.imp (fun hab => le_of_lt hab)
      by_cases hlt : lastIdOfView (runRollback cfg ok defs records lastDef).view < d.id
      · have hdA : d ∈ (runApply cfg ok defs records lastDef).applied := by
          rw [happ1]
          exact List.mem_filter.mpr ⟨hd, by simpa using hlt⟩
        have hmem3 : toRecord d ∈ (migrateCore cfg ok defs records lastDef).db := by
          rw [hdb3eq]
          exact List.mem_append_right _ (List.mem_map_of_mem _ hdA)
        exact le_lastIdOfView hdbWeak _ hmem3
      · have hdle1 : d.id ≤ lastIdOfView (runRollback cfg ok defs records lastDef).view :=
          Nat.not_lt.mp hlt
        cases hgv : (runRollback cfg ok defs records lastDef).view.getLast? with
        | none =>
          have hv0 : lastIdOfView (runRollback cfg ok defs records lastDef).view = 0 := by
            unfold lastIdOfView
            rw [hgv]
          rw [hv0] at hdle1
          exact le_trans hdle1 (Nat.zero_le _)
        | some y =>
          have hLy : lastIdOfView (runRollback cfg ok defs records lastDef).view = y.id := by
            unfold lastIdOfView
            rw [hgv]
          rw [hLy] at hdle1
          have hymem : y ∈ (runRollback cfg ok defs records lastDef).view :=
            mem_of_getLast?' hgv
          rw [hviewS] at hymem
          have hmem3 : auditWrite defs records y ∈
              (migrateCore cfg ok defs records lastDef).db := by
            rw [hdb3eq]
            apply List.mem_append_left
            rw [hdbS]
            exact List.mem_map_of_mem _ hymem
          have hle2 := le_lastIdOfView hdbWeak _ hmem3
          rw [auditWrite_id] at hle2
          exact le_trans hdle1 hle2
    have hne0all : (migrateCore cfg ok defs records lastDef).db = [] →
        ∀ d ∈ defs, ¬(0 : Nat) < d.id := by
      intro hnil d hd
      rw [hdb3eq] at hnil
      obtain ⟨hdbnil, hapnil⟩ := List.append_eq_nil.mp hnil
      have happnil : (runApply cfg ok defs records lastDef).applied = [] :=
        List.map_eq_nil_iff.mp hapnil
      rw [happ1] at happnil
      have hnotelig := List.filter_eq_nil_iff.mp happnil d hd
      have hviewnil : (runRollback cfg ok defs records lastDef).view = [] := by
        have h1m : (records.filter (keepFilter (records.reverse.takeWhile
            (rollbackCond cfg defs (audit defs records).fm lastDef.id)))).map
              (auditWrite defs records) = [] := by
          rw [← hdbS]
          exact hdbnil
        rw [hviewS]
        exact List.map_eq_nil_iff.mp h1m
      have hL0 : lastIdOfView (runRollback cfg ok defs records lastDef).view = 0 := by
        rw [hviewnil]
        rfl
      simpa [hL0] using hnotelig
    exact migrate_second_run cfg ok defs lastDef hlast hforce
      (migrateCore cfg ok defs records lastDef).db hdb3sorted hmmall htopall
      hdleall hne0all

/-- Witness for the amended C8 theorem at a concrete instance. -/
theorem c8_witness :
    (migrate ⟨false, true, Force.off⟩ (fun _ => true)
      [⟨1, "a", "u1", "d1", "h1"⟩]
      (migrate ⟨false, true, Force.off⟩ (fun _ => true)
        [⟨1, "a", "u1", "d1", "h1"⟩] []).db).rolledBack = [] ∧
    (migrate ⟨false, true, Force.off⟩ (fun _ => true)
      [⟨1, "a", "u1", "d1", "h1"⟩]
      (migrate ⟨false, true, Force.off⟩ (fun _ => true)
        [⟨1, "a", "u1", "d1", "h1"⟩] []).db).applied = [] :=
  c8_amended_idempotent ⟨false, true, Force.off⟩ (fun _ => true)
    [⟨1, "a", "u1", "d1", "h1"⟩] [] rfl (by decide) (by decide) (by decide)

theorem startOkAt_succ (c : Char) (rest : List Char) (b : Bool) (i : Nat) :
    startOkAt (c :: rest) b (i + 1) = startOkAt rest (jsLineTerm c) i := by
  cases i with
  | zero => rfl
  | succ k => rfl

theorem anchoredMatch_succ (c : Char) (rest : List Char) (b : Bool) (i : Nat) :
    anchoredMatch (c :: rest) b (i + 1) = anchoredMatch rest (jsLineTerm c) i := by
  unfold anchoredMatch
  rw [startOkAt_succ, List.drop_succ_cons]

theorem anchoredMatch_zero (data : List Char) (b : Bool) :
    anchoredMatch data b 0 = if b = true then matchMarker data else none := by
  simp [anchoredMatch, startOkAt]

/-- The scan returns exactly the earliest anchored match of the regex. -/
theorem findMarkerAux_some_iff :
    ∀ (data : List Char) (b : Bool) (i n : Nat),
    findMarkerAux data b = some (i, n) ↔
      (anchoredMatch data b i = some n ∧
       ∀ j, j < i → anchoredMatch data b j = none) := by
  intro data
  induction data with
  | nil =>
    intro b i n
    constructor
    · intro h
      exact Option.noConfusion h
    · rintro ⟨h1, -⟩
      unfold anchoredMatch at h1
      rw [List.drop_nil] at h1
      cases hs : startOkAt ([] : List Char) b i with
      | true =>
        rw [hs] at h1
        simp [matchMarker] at h1
      | false =>
        rw [hs] at h1
        simp at h1
  | cons c rest ih =>
    intro b i n
    have hstep : findMarkerAux (c :: rest) b =
        match (if b then matchMarker (c :: rest) else none) with
        | some m => some (0, m)
        | none =>
          match findMarkerAux rest (jsLineTerm c) with
          | some p => some (p.1 + 1, p.2)
          | none => none := rfl
    cases hhead : (if b then matchMarker (c :: rest) else none) with
    | some m =>
      have hL : findMarkerAux (c :: rest) b = some (0, m) := by
        rw [hstep, hhead]
      rw [hL]
      constructor
      · intro h
        have h' := Option.some.inj h
        have hi : i = 0 := (Prod.ext_iff.mp h').1.symm
        have hn : n = m := (Prod.ext_iff.mp h').2.symm
        subst hi
        subst hn
        refine ⟨?_, ?_⟩
        · rw [anchoredMatch_zero]
          exact hhead
        · intro j hj
          exact absurd hj (Nat.not_lt_zero j)
      · rintro ⟨h1, h2⟩
        cases i with
        | zero =>
          rw [anchoredMatch_zero, hhead] at h1
          rw [Option.some.inj h1]
        | succ k =>
          have h0 := h2 0 (Nat.succ_pos k)
          rw [anchoredMatch_zero, hhead] at h0
          exact Option.noConfusion h0
    | none =>
      have hL : findMarkerAux (c :: rest) b =
          match findMarkerAux rest (jsLineTerm c) with
          | some p => some (p.1 + 1, p.2)
          | none => none := by
        rw [hstep, hhead]
      rw [hL]
      cases i with
      | zero =>
        constructor
        · intro h
          cases hr : findMarkerAux rest (jsLineTerm c) with
          | none =>
            rw [hr] at h
            exact Option.noConfusion h
          | some p =>
            rw [hr] at h
            have h1 : p.1 + 1 = 0 := (Prod.ext_iff.mp (Option.some.inj h)).1
            exact absurd h1 (Nat.succ_ne_zero p.1)
        · rintro ⟨h1, -⟩
          rw [anchoredMatch_zero, hhead] at h1
          exact Option.noConfusion h1
      | succ k =>
        have hiff := ih (jsLineTerm c) k n
        constructor
        · intro h
          cases hr : findMarkerAux rest (jsLineTerm c) with
          | none =>
            rw [hr] at h
            exact Option.noConfusion h
          | some p =>
            rw [hr] at h
            have hpe := Option.some.inj h
            have hp1 : p.1 = k := Nat.add_right_cancel (Prod.ext_iff.mp hpe).1
            have hp2 : p.2 = n := (Prod.ext_iff.mp hpe).2
            have hrk : findMarkerAux rest (jsLineTerm c) = some (k, n) := by
              rw [hr, ← hp1, ← hp2]
            obtain ⟨g1, g2⟩ := hiff.mp hrk
            refine ⟨?_, ?_⟩
            · rw [anchoredMatch_succ]
              exact g1
            · intro j hj
              cases j with
              | zero => rw [anchoredMatch_zero, hhead]
              | succ j' =>
                rw [anchoredMatch_succ]
                exact g2 j' (Nat.lt_of_succ_lt_succ hj)
        · rintro ⟨h1, h2⟩
          rw [anchoredMatch_succ] at h1
          have h2' : ∀ j, j < k → anchoredMatch rest (jsLineTerm c) j = none := by
            intro j hj
            have hthis := h2 (j + 1) (Nat.succ_lt_succ hj)
            rw [anchoredMatch_succ] at hthis
            exact hthis
          rw [hiff.mpr ⟨h1, h2'⟩]

/-- C3 counterexample: the file body `x\n-- down` contains a well-formed
`-- down` marker line — by the spec the split should succeed (with an
empty down segment) and only a missing marker may fail — yet the code
fails, because `split` leaves an empty second piece and the falsiness
check `if (!down)` rejects the file as malformed. -/
theorem c3_counterexample :
    specHasDownMarkerLine ['x', '\n', '-', '-', ' ', 'd', 'o', 'w', 'n'] = true ∧
    splitUpDown ['x', '\n', '-', '-', ' ', 'd', 'o', 'w', 'n'] = none :=
  ⟨by decide, by decide⟩

/-- C3 (amended): the split looks for the first match of `--` placed at
the start of a line (position 0 or right after a line terminator),
followed by one or more whitespace characters (which may span line
breaks) and then `down` case-insensitively; everything before that match
is the up segment, and the down segment is the text from the end of the
match to the start of the next such match, or to the end of the file.
The load fails exactly when no such match exists, or when the resulting
down segment is empty. -/
theorem c3_amended_first_anchored_split (data : List Char) :
    (splitUpDown data = none ↔
      findMarkerAux data true = none ∨
      ∃ i n, findMarkerAux data true = some (i, n) ∧ downPieceAt data i n = []) ∧
    (∀ i n, findMarkerAux data true = some (i, n) →
      anchoredMatch data true i = some n ∧
      (∀ j, j < i → anchoredMatch data true j = none) ∧
      (downPieceAt data i n ≠ [] →
        splitUpDown data = some (data.take i, downPieceAt data i n))) := by
  constructor
  · cases hf : findMarkerAux data true with
    | none =>
      constructor
      · intro _
        exact Or.inl rfl
      · intro _
        unfold splitUpDown
        rw [hf]
    | some p =>
      have heq : splitUpDown data =
          if (downPieceAt data p.1 p.2).isEmpty then none
          else some (data.take p.1, downPieceAt data p.1 p.2) := by
        unfold splitUpDown
        rw [hf]
      by_cases he : (downPieceAt data p.1 p.2).isEmpty = true
      · rw [heq, if_pos he]
        constructor
        · intro _
          exact Or.inr ⟨p.1, p.2, rfl, List.isEmpty_iff.mp he⟩
        · intro _
          rfl
      · rw [heq, if_neg he]
        constructor
        · intro h
          exact Option.noConfusion h
        · rintro (h | ⟨i, n, hin, hnil⟩)
          · exact Option.noConfusion h
          · have hpe := Option.some.inj hin
            have h1 : p.1 = i := by rw [hpe]
            have h2 : p.2 = n := by rw [hpe]
            exact absurd (by rw [h1, h2, hnil]; rfl) he
  · intro i n hf
    have hi := (findMarkerAux_some_iff data true i n).mp hf
    refine ⟨hi.1, hi.2, ?_⟩
    intro hne
    have heq : splitUpDown data =
        if (downPieceAt data i n).isEmpty then none
        else some (data.take i, downPieceAt data i n) := by
      unfold splitUpDown
      rw [hf]
    rw [heq, if_neg (fun hc => hne (List.isEmpty_iff.mp hc))]

/-- Witness for the amended C3 theorem at a concrete file body. -/
theorem c3_witness :
    splitUpDown ['a', '\n', '-', '-', ' ', 'd', 'o', 'w', 'n', '\n', 'b'] =
      some (['a', '\n'], ['\n', 'b']) :=
  ((c3_amended_first_anchored_split
      ['a', '\n', '-', '-', ' ', 'd', 'o', 'w', 'n', '\n', 'b']).2
    2 7 (by decide)).2.2 (by decide)

/-- A regex attempt succeeds exactly on a digits / separator / middle /
`.sql` decomposition of the filename with digit group of length `k`. -/
theorem matchAtK_some_iff (s : List Char) (k : Nat) (r : List Char × List Char) :
    matchAtK s k = some r ↔
      ∃ c, 1 ≤ k ∧ r.1.length = k ∧
        s = r.1 ++ c :: (r.2 ++ ['.', 's', 'q', 'l']) ∧
        r.1.all Char.isDigit = true ∧ jsLineTerm c = false ∧
        r.2.any jsLineTerm = false := by
  constructor
  · intro h
    unfold matchAtK at h
    by_cases h1 : 1 ≤ k ∧ k + 5 ≤ s.length
    case neg =>
      rw [if_neg h1] at h
      exact Option.noConfusion h
    obtain ⟨hk1, hk5⟩ := h1
    rw [if_pos ⟨hk1, hk5⟩] at h
    cases hdig : (s.take k).all Char.isDigit with
    | false =>
      rw [if_neg (by simp [hdig])] at h
      exact Option.noConfusion h
    | true =>
      rw [if_pos hdig] at h
      cases hc : (s.drop k).head? with
      | none =>
        rw [hc] at h
        exact Option.noConfusion h
      | some c =>
        rw [hc] at h
        have h2 : (if jsLineTerm c then none
            else if ((s.drop (k + 1)).take (s.length - 4 - (k + 1))).any jsLineTerm then
              none
            else if s.drop (s.length - 4) = ['.', 's', 'q', 'l'] then
              some (s.take k, (s.drop (k + 1)).take (s.length - 4 - (k + 1)))
            else none) = some r := h
        cases hlt : jsLineTerm c with
        | true =>
          rw [if_pos hlt] at h2
          exact Option.noConfusion h2
        | false =>
          rw [if_neg (by rw [hlt]; simp)] at h2
          cases hany : ((s.drop (k + 1)).take (s.length - 4 - (k + 1))).any jsLineTerm with
          | true =>
            rw [if_pos hany] at h2
            exact Option.noConfusion h2
          | false =>
            rw [if_neg (by rw [hany]; simp)] at h2
            by_cases htail : s.drop (s.length - 4) = ['.', 's', 'q', 'l']
            case neg =>
              rw [if_neg htail] at h2
              exact Option.noConfusion h2
            rw [if_pos htail] at h2
            have hr := (Option.some.inj h2).symm
            have hr1 : r.1 = s.take k := by rw [hr]
            have hr2 : r.2 = (s.drop (k + 1)).take (s.length - 4 - (k + 1)) := by rw [hr]
            refine ⟨c, hk1, ?_, ?_, ?_, hlt, ?_⟩
            · rw [hr1, List.length_take]
              omega
            · rw [hr1, hr2]
              have hdk : s.drop k = c :: s.drop (k + 1) := by
                cases hdk0 : s.drop k with
                | nil =>
                  rw [hdk0] at hc
                  exact Option.noConfusion hc
                | cons a t =>
                  rw [hdk0] at hc
                  have ha : a = c := by simpa using hc
                  have ht : t = s.drop (k + 1) := by
                    have htl := List.tail_drop s k
                    rw [hdk0] at htl
                    simpa using htl
                  rw [ha, ht]
              have hsplit : s.drop (k + 1) =
                  (s.drop (k + 1)).take (s.length - 4 - (k + 1)) ++ s.drop (s.length - 4) := by
                conv_lhs =>
                  rw [← List.take_append_drop (s.length - 4 - (k + 1)) (s.drop (k + 1))]
                rw [List.drop_drop]
                congr 2
                omega
              conv_lhs => rw [← List.take_append_drop k s]
              rw [hdk]
              conv_lhs => rw [hsplit]
              rw [htail]
            · rw [hr1]
              exact hdig
            · rw [hr2]
              exact hany
  · rintro ⟨c, hk1, hlen, hs, hdig, hlt, hany⟩
    have hn : s.length = k + 5 + r.2.length := by
      have h' := congrArg List.length hs
      simp [hlen] at h'
      omega
    have hk5 : k + 5 ≤ s.length := by omega
    have htake : s.take k = r.1 := by
      rw [hs, ← hlen]
      exact List.take_left r.1 _
    have hdropk : s.drop k = c :: (r.2 ++ ['.', 's', 'q', 'l']) := by
      rw [hs, ← hlen]
      exact List.drop_left r.1 _
    have hhead : (s.drop k).head? = some c := by
      rw [hdropk]
      rfl
    have hdropk1 : s.drop (k + 1) = r.2 ++ ['.', 's', 'q', 'l'] := by
      have htl := List.tail_drop s k
      rw [hdropk] at htl
      exact htl.symm
    have hmid : (s.drop (k + 1)).take (s.length - 4 - (k + 1)) = r.2 := by
      rw [hdropk1]
      have hlen2 : s.length - 4 - (k + 1) = r.2.length := by omega
      rw [hlen2]
      exact List.take_left r.2 _
    have htail : s.drop (s.length - 4) = ['.', 's', 'q', 'l'] := by
      have hdd := List.drop_drop (r.2.length) (k + 1) s
      rw [hdropk1] at hdd
      have hlen3 : k + 1 + r.2.length = s.length - 4 := by omega
      rw [hlen3] at hdd
      rw [← hdd, List.drop_left r.2 _]
    unfold matchAtK
    rw [if_pos ⟨hk1, hk5⟩, htake, if_pos hdig, hhead]
    show (if jsLineTerm c then none
      else if ((s.drop (k + 1)).take (s.length - 4 - (k + 1))).any jsLineTerm then none
      else if s.drop (s.length - 4) = ['.', 's', 'q', 'l'] then
        some (r.1, (s.drop (k + 1)).take (s.length - 4 - (k + 1)))
      else none) = some r
    rw [if_neg (by rw [hlt]; simp), hmid, if_neg (by rw [hany]; simp), if_pos htail]

/-- The backtracking scan returns the match with the longest digit group
among the candidates up to `kmax`. -/
theorem tryFrom_some_iff (s : List Char) :
    ∀ (kmax : Nat) (r : List Char × List Char),
    tryFrom s kmax = some r ↔
      ∃ k, 1 ≤ k ∧ k ≤ kmax ∧ matchAtK s k = some r ∧
        ∀ k', k < k' → k' ≤ kmax → matchAtK s k' = none := by
  intro kmax
  induction kmax with
  | zero =>
    intro r
    constructor
    · intro h
      exact Option.noConfusion h
    · rintro ⟨k, hk1, hk0, -, -⟩
      exact absurd (Nat.le_trans hk1 hk0) (by decide)
  | succ m ih =>
    intro r
    constructor
    · intro h
      unfold tryFrom at h
      cases hm : matchAtK s (m + 1) with
      | some r0 =>
        rw [hm] at h
        refine ⟨m + 1, by omega, le_refl _, hm.trans h, ?_⟩
        intro k' h1 h2
        exact absurd h2 (by omega)
      | none =>
        rw [hm] at h
        obtain ⟨k, hk1, hkm, hmk, hmax⟩ := (ih r).mp h
        refine ⟨k, hk1, by omega, hmk, ?_⟩
        intro k' hlt hle
        rcases Nat.lt_or_ge k' (m + 1) with hlt2 | hge
        · exact hmax k' hlt (by omega)
        · have heq : k' = m + 1 := by omega
          rw [heq]
          exact hm
    · rintro ⟨k, hk1, hkle, hmk, hmax⟩
      unfold tryFrom
      rcases Nat.lt_or_ge (m + 1) (k + 1) with hge | hlt
      · have hkeq : k = m + 1 := by omega
        rw [hkeq] at hmk
        rw [hmk]
      · have hm1 : matchAtK s (m + 1) = none := hmax (m + 1) (by omega) (le_refl _)
        rw [hm1]
        show tryFrom s m = some r
        exact (ih r).mpr ⟨k, hk1, by omega, hmk, fun k' ha hb => hmax k' ha (by omega)⟩

/-- An all-`p` prefix never exceeds the `takeWhile p` run. -/
theorem all_prefix_le_takeWhile {p : Char → Bool} :
    ∀ (ds rest : List Char), ds.all p = true →
    ds.length ≤ ((ds ++ rest).takeWhile p).length := by
  intro ds
  induction ds with
  | nil =>
    intro rest _
    exact Nat.zero_le _
  | cons a t ih =>
    intro rest hall
    obtain ⟨ha, ht⟩ : p a = true ∧ t.all p = true := by simpa using hall
    rw [List.cons_append, List.takeWhile_cons, if_pos ha]
    exact Nat.succ_le_succ (ih rest ht)

/-- C5 counterexample: the filename `12.sql` is not of the spec's form
`<digits>.<name>.sql` (after the digit run `12` there is no separating
dot before a name and a final `.sql`), yet the loader accepts it — the
greedy digit group backtracks to `1`, the unescaped dot consumes the
`2`, and the file is loaded with `id = 1` (not the leading digit run
`12`) and an empty name. -/
theorem c5_counterexample :
    parseFilename ['1', '2', '.', 's', 'q', 'l'] = some (1, []) ∧
    specFilenameForm ['1', '2', '.', 's', 'q', 'l'] = false :=
  ⟨by decide, by decide⟩

/-- C5 (amended): a filename is loaded exactly when it splits as
`<digits><sep><mid>.sql` where the digit group is non-empty, the single
separator character is arbitrary (any character but a line terminator —
not necessarily a dot), and the middle segment is free of line
terminators; among such splits the digit group is the longest possible,
`id` is the parsed digit group and `name` is the middle segment.  The
loaded list is sorted ascending (non-strictly) by id. -/
theorem c5_amended_filename_parse :
    (∀ (s : List Char) (id : Nat) (name : List Char),
      parseFilename s = some (id, name) ↔
      ∃ ds c, s = ds ++ c :: (name ++ ['.', 's', 'q', 'l']) ∧
        1 ≤ ds.length ∧ ds.all Char.isDigit = true ∧ jsLineTerm c = false ∧
        name.any jsLineTerm = false ∧ id = digitsToNat ds ∧
        (∀ (ds' : List Char) (c' : Char) (name' : List Char),
          s = ds' ++ c' :: (name' ++ ['.', 's', 'q', 'l']) →
          ds'.all Char.isDigit = true → jsLineTerm c' = false →
          name'.any jsLineTerm = false → ds'.length ≤ ds.length)) ∧
    (∀ files : List (List Char),
      (loadDefsFromNames files).Pairwise (fun a b => a.1 ≤ b.1)) := by
  constructor
  · intro s id name
    constructor
    · intro h
      unfold parseFilename at h
      cases ht : tryFrom s (s.takeWhile Char.isDigit).length with
      | none =>
        rw [ht] at h
        exact Option.noConfusion h
      | some r =>
        rw [ht] at h
        have hidname := Option.some.inj h
        have hid : id = digitsToNat r.1 := ((Prod.ext_iff.mp hidname).1).symm
        have hname : name = r.2 := ((Prod.ext_iff.mp hidname).2).symm
        obtain ⟨k, hk1, hkR, hmk, hmax⟩ := (tryFrom_some_iff s _ r).mp ht
        obtain ⟨c, -, hrlen, hs, hdig, hlt, hany⟩ := (matchAtK_some_iff s k r).mp hmk
        refine ⟨r.1, c, ?_, ?_, hdig, hlt, ?_, hid, ?_⟩
        · rw [hname]
          exact hs
        · rw [hrlen]
          exact hk1
        · rw [hname]
          exact hany
        · intro ds' c' name' hs' hdig' hlt' hany'
          rw [hrlen]
          by_contra hgt
          push_neg at hgt
          have hm' : matchAtK s ds'.length = some (ds', name') :=
            (matchAtK_some_iff s ds'.length (ds', name')).mpr
              ⟨c', by omega, rfl, hs', hdig', hlt', hany'⟩
          have hbound : ds'.length ≤ (s.takeWhile Char.isDigit).length := by
            have hb := all_prefix_le_takeWhile ds' (c' :: (name' ++ ['.', 's', 'q', 'l'])) hdig'
            rw [← hs'] at hb
            exact hb
          have hcontra := hmax ds'.length hgt hbound
          rw [hm'] at hcontra
          exact Option.noConfusion hcontra
    · rintro ⟨ds, c, hs, hds1, hdig, hlt, hany, hid, hmax⟩
      have hm : matchAtK s ds.length = some (ds, name) :=
        (matchAtK_some_iff s ds.length (ds, name)).mpr ⟨c, hds1, rfl, hs, hdig, hlt, hany⟩
      have hR : ds.length ≤ (s.takeWhile Char.isDigit).length := by
        have hb := all_prefix_le_takeWhile ds (c :: (name ++ ['.', 's', 'q', 'l'])) hdig
        rw [← hs] at hb
        exact hb
      have hnone : ∀ k', ds.length < k' → k' ≤ (s.takeWhile Char.isDigit).length →
          matchAtK s k' = none := by
        intro k' hlt' hle'
        cases hm' : matchAtK s k' with
        | none => rfl
        | some r' =>
          obtain ⟨c', -, hrlen', hs'', hdig'', hlt'', hany''⟩ :=
            (matchAtK_some_iff s k' r').mp hm'
          have hcmp := hmax r'.1 c' r'.2 hs'' hdig'' hlt'' hany''
          omega
      have ht : tryFrom s (s.takeWhile Char.isDigit).length = some (ds, name) :=
        (tryFrom_some_iff s _ (ds, name)).mpr ⟨ds.length, hds1, hR, hm, hnone⟩
      unfold parseFilename
      rw [ht, hid]
  · intro files
    exact List.sorted_insertionSort _ (files.filterMap parseFilename)

/-- Witness for the amended C5 theorem at a concrete filename. -/
theorem c5_witness :
    ∃ ds c, ['7', '.', 'a', '.', 's', 'q', 'l'] = ds ++ c :: (['a'] ++ ['.', 's', 'q', 'l']) ∧
      1 ≤ ds.length ∧ ds.all Char.isDigit = true ∧ jsLineTerm c = false ∧
      List.any ['a'] jsLineTerm = false ∧ 7 = digitsToNat ds ∧
      (∀ (ds' : List Char) (c' : Char) (name' : List Char),
        ['7', '.', 'a', '.', 's', 'q', 'l'] = ds' ++ c' :: (name' ++ ['.', 's', 'q', 'l']) →
        ds'.all Char.isDigit = true → jsLineTerm c' = false →
        name'.any jsLineTerm = false → ds'.length ≤ ds.length) :=
  ((c5_amended_filename_parse.1 ['7', '.', 'a', '.', 's', 'q', 'l'] 7 ['a']).mp (by decide))

theorem roundStep_length (kw : Nat × Nat) (st : List Nat) :
    (roundStep kw st).length = 8 := rfl

theorem foldl_roundStep_length (l : List (Nat × Nat)) :
    ∀ st : List Nat, st.length = 8 →
    (l.foldl (fun s kw => roundStep kw s) st).length = 8 := by
  induction l with
  | nil =>
    intro st h
    simpa using h
  | cons kw t ih =>
    intro st h
    simp only [List.foldl_cons]
    exact ih _ (roundStep_length kw st)

theorem compress_length (hs block : List Nat) (h : hs.length = 8) :
    (compress hs block).length = 8 := by
  unfold compress
  rw [List.length_zipWith, h, foldl_roundStep_length _ hs h]
  rfl

theorem foldl_compress_length (bs : List (List Nat)) :
    ∀ hs : List Nat, hs.length = 8 → (bs.foldl compress hs).length = 8 := by
  induction bs with
  | nil =>
    intro hs h
    simpa using h
  | cons b t ih =>
    intro hs h
    simp only [List.foldl_cons]
    exact ih _ (compress_length hs b h)

theorem sha512Words_length (msg : List Nat) : (sha512Words msg).length = 8 := by
  unfold sha512Words
  exact foldl_compress_length _ H512 rfl

theorem hexWord_length (w : Nat) : (hexWord w).length = 16 := by
  unfold hexWord
  rw [List.length_map, List.length_range]

theorem length_flatten_hexWords : ∀ ws : List Nat,
    ((ws.map hexWord).flatten).length = 16 * ws.length := by
  intro ws
  induction ws with
  | nil => rfl
  | cons w t ih =>
    simp only [List.map_cons, List.flatten_cons, List.length_append, hexWord_length, ih,
      List.length_cons]
    ring

theorem contentHash_length (d : List Char) : (contentHash d).length = 128 := by
  unfold contentHash
  rw [length_flatten_hexWords, sha512Words_length]

theorem hexDigit_mem : ∀ m : Nat, m < 16 → hexDigit m ∈ hexDigits := by decide

theorem contentHash_charset (d : List Char) : ∀ c ∈ contentHash d, c ∈ hexDigits := by
  intro c hc
  unfold contentHash at hc
  rw [List.mem_flatten] at hc
  obtain ⟨l, hl, hcl⟩ := hc
  rw [List.mem_map] at hl
  obtain ⟨w, -, rfl⟩ := hl
  unfold hexWord at hcl
  rw [List.mem_map] at hcl
  obtain ⟨i, -, rfl⟩ := hcl
  exact hexDigit_mem _ (Nat.mod_lt _ (by decide))

theorem norm_cons_length (c1 : Char) (t : List Char) (hc1 : ¬c1 = '\x0D') :
    (normalizeNewlines (c1 :: t)).length = (normalizeNewlines t).length + 1 := by
  cases t with
  | nil => simp [normalizeNewlines]
  | cons c2 t' =>
    simp only [normalizeNewlines]
    rw [if_neg (fun hand => hc1 hand.1)]
    simp

/-- CRLF normalization is injective on pairs that differ in exactly one
character (same position, same surroundings). -/
theorem normalizeNewlines_sub_inj :
    ∀ (n : Nat) (l r : List Char) (a b : Char), l.length ≤ n →
    normalizeNewlines (l ++ a :: r) = normalizeNewlines (l ++ b :: r) → a = b := by
  intro n
  induction n with
  | zero =>
    intro l r a b hl h
    have hl0 : l = [] := List.length_eq_zero.mp (Nat.le_zero.mp hl)
    subst hl0
    simp only [List.nil_append] at h
    cases r with
    | nil => simpa [normalizeNewlines] using h
    | cons c t =>
      by_cases hpa : a = '\r' ∧ c = '\n'
      · by_cases hpb : b = '\r' ∧ c = '\n'
        · rw [hpa.1, hpb.1]
        · simp only [normalizeNewlines] at h
          rw [if_pos hpa, if_neg hpb] at h
          exfalso
          have ht := (List.cons.inj h).2
          have hlen := congrArg List.length ht
          rw [hpa.2] at hlen
          rw [norm_cons_length '\n' t (by decide)] at hlen
          omega
      · by_cases hpb : b = '\r' ∧ c = '\n'
        · simp only [normalizeNewlines] at h
          rw [if_neg hpa, if_pos hpb] at h
          exfalso
          have ht := (List.cons.inj h).2
          have hlen := congrArg List.length ht
          rw [hpb.2] at hlen
          rw [norm_cons_length '\n' t (by decide)] at hlen
          omega
        · simp only [normalizeNewlines] at h
          rw [if_neg hpa, if_neg hpb] at h
          exact (List.cons.inj h).1
  | succ m ih =>
    intro l r a b hl h
    cases l with
    | nil => exact ih [] r a b (Nat.zero_le m) h
    | cons c l' =>
      cases l' with
      | nil =>
        simp only [List.cons_append, List.nil_append] at h
        by_cases hpa : c = '\r' ∧ a = '\n'
        · by_cases hpb : c = '\r' ∧ b = '\n'
          · rw [hpa.2, hpb.2]
          · simp only [normalizeNewlines] at h
            rw [if_pos hpa, if_neg hpb] at h
            exfalso
            have hhd := (List.cons.inj h).1
            rw [hpa.1] at hhd
            exact absurd hhd (by decide)
        · by_cases hpb : c = '\r' ∧ b = '\n'
          · simp only [normalizeNewlines] at h
            rw [if_neg hpa, if_pos hpb] at h
            exfalso
            have hhd := (List.cons.inj h).1
            rw [hpb.1] at hhd
            exact absurd hhd (by decide)
          · simp only [normalizeNewlines] at h
            rw [if_neg hpa, if_neg hpb] at h
            exact ih [] r a b (Nat.zero_le m) ((List.cons.inj h).2)
      | cons c2 l'' =>
        simp only [List.cons_append] at h
        simp only [normalizeNewlines] at h
        by_cases hp : c = '\r' ∧ c2 = '\n'
        · rw [if_pos hp, if_pos hp] at h
          have hlen' : l''.length ≤ m := by
            simp only [List.length_cons] at hl
            omega
          exact ih l'' r a b hlen' ((List.cons.inj h).2)
        · rw [if_neg hp, if_neg hp] at h
          have hlen' : (c2 :: l'').length ≤ m := by
            simp only [List.length_cons] at hl ⊢
            omega
          exact ih (c2 :: l'') r a b hlen' ((List.cons.inj h).2)

/-- C4 counterexample: the files `a\r\nb` and `a\nb` differ (in a single
byte of the original content: one carriage return), yet their content
hashes are identical, because the CRLF normalization erases the
difference before the digest is taken — "changing any single byte
anywhere in the file changes the digest" fails for line-ending bytes. -/
theorem c4_counterexample :
    contentHash ['a', '\r', '\n', 'b'] = contentHash ['a', '\n', 'b'] ∧
    (['a', '\r', '\n', 'b'] : List Char) ≠ ['a', '\n', 'b'] := by
  constructor
  · unfold contentHash
    rw [show normalizeNewlines ['a', '\r', '\n', 'b'] =
        normalizeNewlines ['a', '\n', 'b'] from by decide]
  · decide

/-- C4 (amended): `contentHash` digests the CRLF-normalized original
content, so files with the same normalized content (in particular CRLF
versus LF line endings) hash identically; the digest is always 128
lowercase hexadecimal characters (a 512-bit value); and substituting a
single character always changes the normalized byte stream fed to the
digest (digest collisions for distinct streams are a cryptographic
assumption outside the model). -/
theorem c4_amended_hash_pipeline :
    (∀ d1 d2 : List Char, normalizeNewlines d1 = normalizeNewlines d2 →
      contentHash d1 = contentHash d2) ∧
    (∀ d : List Char, (contentHash d).length = 128 ∧ ∀ c ∈ contentHash d, c ∈ hexDigits) ∧
    (∀ (l r : List Char) (a b : Char), a ≠ b →
      normalizeNewlines (l ++ a :: r) ≠ normalizeNewlines (l ++ b :: r)) := by
  refine ⟨?_, ?_, ?_⟩
  · intro d1 d2 h
    unfold contentHash
    rw [h]
  · intro d
    exact ⟨contentHash_length d, contentHash_charset d⟩
  · intro l r a b hab h
    exact hab (normalizeNewlines_sub_inj l.length l r a b (le_refl _) h)

/-- Witness for the amended C4 theorem at concrete file contents. -/
theorem c4_witness :
    contentHash ['x', '\r', '\n'] = contentHash ['x', '\n'] ∧
    normalizeNewlines (['x'] ++ 'a' :: []) ≠ normalizeNewlines (['x'] ++ 'b' :: []) :=
  ⟨c4_amended_hash_pipeline.1 ['x', '\r', '\n'] ['x', '\n'] (by decide),
   c4_amended_hash_pipeline.2.2 ['x'] [] 'a' 'b' (by decide)⟩

end PgMigrate
